import Mathlib

/-!
Verification of the getv profile-storage core: a shallow embedding of
`EnvStore` (src/getv/store.py), `ProfileManager` (src/getv/profile.py) and
`EnvWatcher` (src/getv/watcher.py), with theorems settling the specified
properties of load/save round-trips, validation, diff, copy, merge and the
polling change watcher.

Strings are modelled as `List Char`; Python `dict`s as association lists
with Python insertion semantics (assigning to an existing key keeps its
position, a new key is appended).  The filesystem seen by `ProfileManager`
is a record of existing category directories and `(category, name)`-indexed
file contents.
-/

namespace Getv

/-- Python strings, modelled as lists of characters. -/
abbrev Str := List Char

/-- The whitespace characters stripped by Python `str.strip()` (ASCII range:
space, tab, newline, carriage return, vertical tab, form feed). -/
def pyWS (c : Char) : Bool :=
  c = ' ' || c = '\t' || c = '\n' || c = Char.ofNat 13 || c = Char.ofNat 11 || c = Char.ofNat 12

/-- Python `str.lstrip()`. -/
def lstrip (s : Str) : Str := s.dropWhile pyWS

/-- Python `str.rstrip()`. -/
def rstrip (s : Str) : Str := (s.reverse.dropWhile pyWS).reverse

/-- Python `str.strip()`. -/
def strip (s : Str) : Str := rstrip (lstrip s)

/-- Split at the first `=`: Python `s.partition("=")` / `s.split("=", 1)`
restricted to the case where `=` occurs; `none` means no `=` in `s`. -/
def splitEq : Str → Option (Str × Str)
  | [] => none
  | c :: rest =>
    if c = '=' then some ([], rest)
    else (splitEq rest).map (fun p => (c :: p.1, p.2))

/-- The line-boundary characters of Python `str.splitlines`: `\n`, `\r`
(and `\r\n` as one boundary), `\v`, `\f`, the file/group/record
separators, NEL, and the Unicode line/paragraph separators. -/
def isLineBreak (c : Char) : Bool :=
  c = '\n' || c = Char.ofNat 13 || c = Char.ofNat 11 || c = Char.ofNat 12 ||
  c = Char.ofNat 28 || c = Char.ofNat 29 || c = Char.ofNat 30 || c = Char.ofNat 133 ||
  c = Char.ofNat 8232 || c = Char.ofNat 8233

/-- The universal-newline translation `Path.read_text` applies before the
program sees the text: `\r\n` and lone `\r` both become `\n`. -/
def translateNL : Str → Str
  | [] => []
  | c :: s =>
    if c = Char.ofNat 13 then
      match s with
      | [] => ['\n']
      | d :: s2 => if d = '\n' then '\n' :: translateNL s2 else '\n' :: translateNL (d :: s2)
    else c :: translateNL s

/-- Split on the single-character boundaries of `str.splitlines` (after
universal-newline translation no `\r` remains, so every boundary is one
character). -/
def splitOnBreaks : Str → List Str
  | [] => []
  | c :: s =>
    if isLineBreak c then [] :: splitOnBreaks s
    else
      match splitOnBreaks s with
      | [] => [[c]]
      | l :: ls => (c :: l) :: ls

/-- What `self.path.read_text(encoding="utf-8").splitlines()` yields:
universal-newline translation followed by Python `str.splitlines`. -/
def splitlines (s : Str) : List Str := splitOnBreaks (translateNL s)

/-- Python `"\n".join(lines)`. -/
def joinNL : List Str → Str
  | [] => []
  | [l] => l
  | l :: l2 :: rest => l ++ '\n' :: joinNL (l2 :: rest)

/-- The `KEY=VALUE` line `save` writes via `f"{key}={value}"`. -/
def mkLine (k v : Str) : Str := k ++ '=' :: v

/-- The single quote character. -/
def squote : Char := Char.ofNat 39

/-- Strip one layer of matching surrounding quotes, as `_load` does:
`if len(value) >= 2 and value[0] == value[-1] and value[0] in (double, single)`. -/
def stripQuotes (v : Str) : Str :=
  match v with
  | [] => []
  | c :: rest =>
    if rest ≠ [] ∧ rest.getLast? = some c ∧ (c = '"' ∨ c = squote) then rest.dropLast
    else c :: rest

/-- Parse one line the way `EnvStore._load` does: strip, skip blank and
comment lines and lines without `=`, split on the first `=`, strip key and
value, strip surrounding quotes from the value. -/
def parseEntry (line : Str) : Option (Str × Str) :=
  let s := strip line
  if s = [] then none
  else if s.head? = some '#' then none
  else
    match splitEq s with
    | none => none
    | some (k, v) => some (strip k, stripQuotes (strip v))

/-- Association lists standing in for Python `dict`s. -/
def alookup {β : Type} (k : Str) : List (Str × β) → Option β
  | [] => none
  | (k', v) :: d => if k' = k then some v else alookup k d

/-- Python `d[k] = v`: replace in place if the key exists, else append. -/
def ainsert {β : Type} (k : Str) (v : β) : List (Str × β) → List (Str × β)
  | [] => [(k, v)]
  | (k', v') :: d => if k' = k then (k', v) :: d else (k', v') :: ainsert k v d

/-- A Python `dict` of string values. -/
abbrev Dict := List (Str × Str)

/-- Python `d.pop(k, None)`. -/
def derase (k : Str) (d : Dict) : Dict := d.filter (fun p => ¬ p.1 = k)

/-- Python `d.update(m)`: fold the entries of `m` into `d` in order. -/
def dupdate (d m : Dict) : Dict := m.foldl (fun acc p => ainsert p.1 p.2 acc) d

/-- The keys of a dict, in insertion order. -/
def dkeys (d : Dict) : List Str := d.map Prod.fst

/-! ## EnvStore (src/getv/store.py)

The in-memory state: `data` mirrors `self._data`, `raw` mirrors
`self._raw_lines`.  File paths, directory creation and the `_loaded` flag
live in the filesystem layer below. -/

structure EnvStore where
  data : Dict
  raw : List Str
deriving Repr, DecidableEq

/-- One iteration of the `_load` loop: if the line parses as a key/value
entry, `self._data[key] = value`. -/
def loadStep (d : Dict) (line : Str) : Dict :=
  match parseEntry line with
  | none => d
  | some (k, v) => ainsert k v d

/-- The `_load` loop over already-split lines, starting from the cleared
`self._data`. -/
def loadData (lines : List Str) : Dict := lines.foldl loadStep []

/-- `EnvStore._load` on a file with the given text: split into lines,
record them as `_raw_lines`, and parse entries into `_data`. -/
def loadStore (content : Str) : EnvStore :=
  { data := loadData (splitlines content), raw := splitlines content }

/-- `EnvStore.get(key)` (default `None`). -/
def EnvStore.get (st : EnvStore) (k : Str) : Option Str := alookup k st.data

/-- `EnvStore.set(key, value)`: in-memory only. -/
def EnvStore.set (st : EnvStore) (k v : Str) : EnvStore :=
  { st with data := ainsert k v st.data }

/-- `EnvStore.update(mapping)`: bulk set. -/
def EnvStore.update (st : EnvStore) (m : Dict) : EnvStore :=
  { st with data := dupdate st.data m }

/-- `EnvStore.delete(key)`. -/
def EnvStore.delete (st : EnvStore) (k : Str) : EnvStore :=
  { st with data := derase k st.data }

/-- `EnvStore.as_dict()`. -/
def EnvStore.as_dict (st : EnvStore) : Dict := st.data

/-- The loop of `EnvStore.save` over `self._raw_lines`: keep comment and
blank lines verbatim; for a line containing `=`, rewrite it as
`f"{key}={self._data[key]}"` when its key is still present (recording the
key in `written_keys`) and drop it when the key was deleted; keep other
lines verbatim.  Returns the rewritten lines and the written keys. -/
def saveWalk (data : Dict) : List Str → List Str × List Str
  | [] => ([], [])
  | line :: rest =>
    let s := strip line
    if s.head? = some '#' ∨ s = [] then
      let (ls, w) := saveWalk data rest
      (line :: ls, w)
    else
      match splitEq s with
      | some (kraw, _) =>
        let k := strip kraw
        match alookup k data with
        | some v =>
          let (ls, w) := saveWalk data rest
          (mkLine k v :: ls, k :: w)
        | none => saveWalk data rest
      | none =>
        let (ls, w) := saveWalk data rest
        (line :: ls, w)

/-- The full line list `EnvStore.save` writes: the rewritten original lines
followed by `f"{key}={value}"` for every entry whose key was not written. -/
def saveNewLines (st : EnvStore) : List Str :=
  let (ls, w) := saveWalk st.data st.raw
  ls ++ (st.data.filter (fun p => ¬ p.1 ∈ w)).map (fun p => mkLine p.1 p.2)

/-- The file text `EnvStore.save` writes: `"\n".join(new_lines) + "\n"`. -/
def saveContent (st : EnvStore) : Str := joinNL (saveNewLines st) ++ ['\n']

/-- `EnvStore.save`'s effect on the in-memory state:
`self._raw_lines = new_lines`. -/
def EnvStore.save (st : EnvStore) : EnvStore := { st with raw := saveNewLines st }

/-! ## ProfileManager (src/getv/profile.py)

Profiles live at `base_dir/category/name.env`, so the filesystem relevant
to one `ProfileManager` is modelled as the set of category directories that
exist plus the contents of profile files indexed by `(category, name)`. -/

structure FS where
  dirs : List Str
  files : List (Str × Str × Str)
deriving Repr, DecidableEq

/-- Does the profile file `base_dir/c/n.env` exist, and with what text. -/
def FS.read (fs : FS) (c n : Str) : Option Str :=
  (fs.files.find? (fun e => e.1 = c ∧ e.2.1 = n)).map (fun e => e.2.2)

/-- Write (create or replace) the profile file `base_dir/c/n.env`. -/
def FS.write (fs : FS) (c n content : Str) : FS :=
  if (fs.files.find? (fun e => e.1 = c ∧ e.2.1 = n)).isSome then
    { fs with
      files := fs.files.map (fun e => if e.1 = c ∧ e.2.1 = n then (c, n, content) else e) }
  else { fs with files := fs.files ++ [(c, n, content)] }

/-- `path.unlink()` for the profile file. -/
def FS.remove (fs : FS) (c n : Str) : FS :=
  { fs with files := fs.files.filter (fun e => ¬ (e.1 = c ∧ e.2.1 = n)) }

/-- `mkdir(parents=True, exist_ok=True)` on a category directory. -/
def FS.mkCatDir (fs : FS) (c : Str) : FS :=
  if c ∈ fs.dirs then fs else { fs with dirs := fs.dirs ++ [c] }

/-- The in-memory policy `add_category` stores per category. -/
structure CatInfo where
  required_keys : List Str
  defaults : Dict
deriving Repr, DecidableEq

/-- `ProfileManager`'s in-memory state: `self._categories`. -/
structure PM where
  categories : List (Str × CatInfo)
deriving Repr, DecidableEq

/-- `ProfileValidationError(category, name, missing)`. -/
structure ValErr where
  category : Str
  name : Str
  missing : List Str
deriving Repr, DecidableEq

/-- `ProfileManager.add_category`: store (replace) the policy and create
the category directory. -/
def PM.add_category (pm : PM) (c : Str) (required_keys : Option (List Str))
    (defaults : Option Dict) (fs : FS) : PM × FS :=
  ({ categories := ainsert c ⟨required_keys.getD [], defaults.getD []⟩ pm.categories },
   fs.mkCatDir c)

/-- The `required_keys` of a category: `self._categories.get(category, {})`
then `.get("required_keys", [])`. -/
def PM.requiredOf (pm : PM) (c : Str) : List Str :=
  ((alookup c pm.categories).map CatInfo.required_keys).getD []

/-- `ProfileManager.validate(category, data)`:
`[k for k in required if k not in data or not data[k]]`. -/
def PM.validate (pm : PM) (c : Str) (data : Dict) : List Str :=
  (pm.requiredOf c).filter
    (fun k => alookup k data = none ∨ alookup k data = some [])

/-- `ProfileManager.get(category, name)`: `_profile_path` creates the
category directory; return `None` when the file does not exist, else a
fresh `EnvStore` loaded from it. -/
def PM.get (_pm : PM) (c n : Str) (fs : FS) : Option EnvStore × FS :=
  let fs1 := fs.mkCatDir c
  match fs1.read c n with
  | none => (none, fs1)
  | some content => (some (loadStore content), fs1)

/-- `ProfileManager.get_dict(category, name)`: `{}` when not found. -/
def PM.get_dict (pm : PM) (c n : Str) (fs : FS) : Dict × FS :=
  match pm.get c n fs with
  | (none, fs1) => ([], fs1)
  | (some st, fs1) => (st.as_dict, fs1)

/-- The write part of `ProfileManager.set` (after validation): load or
create the target store, `update(data)`, `save()`. -/
def PM.setWrite (_pm : PM) (c n : Str) (data : Dict) (fs : FS) : EnvStore × FS :=
  let fs1 := fs.mkCatDir c
  let st0 :=
    match fs1.read c n with
    | some content => loadStore content
    | none => EnvStore.mk [] []
  let st1 := st0.update data
  (st1.save, fs1.write c n (saveContent st1))

/-- `ProfileManager.set(category, name, data, validate)`: when `validate`
is true and some required key is missing, raise `ProfileValidationError`
before touching the filesystem; otherwise write. -/
def PM.set (pm : PM) (c n : Str) (data : Dict) (vflag : Bool) (fs : FS) :
    Except ValErr EnvStore × FS :=
  if vflag = true ∧ pm.validate c data ≠ [] then
    (Except.error ⟨c, n, pm.validate c data⟩, fs)
  else
    let (st, fs1) := pm.setWrite c n data fs
    (Except.ok st, fs1)

/-- `ProfileManager.delete(category, name)`. -/
def PM.delete (_pm : PM) (c n : Str) (fs : FS) : Bool × FS :=
  let fs1 := fs.mkCatDir c
  match fs1.read c n with
  | some _ => (true, fs1.remove c n)
  | none => (false, fs1)

/-- `ProfileManager.exists(category, name)`. -/
def PM.pexists (_pm : PM) (c n : Str) (fs : FS) : Bool × FS :=
  let fs1 := fs.mkCatDir c
  ((fs1.read c n).isSome, fs1)

/-- Lexicographic order on strings by code point, Python's `sorted` order. -/
def strLeB : Str → Str → Bool
  | [], _ => true
  | _ :: _, [] => false
  | a :: s, b :: t => if a = b then strLeB s t else decide (a.toNat < b.toNat)

def strLe (a b : Str) : Prop := strLeB a b = true

instance : DecidableRel strLe := fun a b => decEq (strLeB a b) true

/-- `ProfileManager.list(category)`: the category's profile files sorted by
name, each loaded fresh. -/
def PM.plist (_pm : PM) (c : Str) (fs : FS) : List (Str × EnvStore) × FS :=
  let fs1 := fs.mkCatDir c
  let names := (fs1.files.filterMap (fun e => if e.1 = c then some e.2.1 else none)).dedup
  ((names.insertionSort strLe).filterMap
     (fun n => (fs1.read c n).map (fun content => (n, loadStore content))),
   fs1)

/-- `ProfileManager.merge_profiles(base, **profiles)` over the caller's
ordered `(category, optional name)` pairs.  `dict(base)` is copied, a
`None` name is skipped, and `if store:` is Python truthiness on
`EnvStore.__len__`, so an absent or empty profile contributes nothing. -/
def PM.merge_profiles (pm : PM) (base : Dict) (pairs : List (Str × Option Str))
    (fs : FS) : Dict × FS :=
  pairs.foldl
    (fun acc p =>
      match p.2 with
      | none => acc
      | some n =>
        match pm.get p.1 n acc.2 with
        | (some st, fs1) => if st.data ≠ [] then (dupdate acc.1 st.data, fs1) else (acc.1, fs1)
        | (none, fs1) => (acc.1, fs1))
    (base, fs)

/-- `ProfileManager.diff(category, name_a, name_b)`: over the sorted union
of both key sets, keep the keys whose values differ, as
`key → (value_a or None, value_b or None)`. -/
def PM.diff (pm : PM) (c na nb : Str) (fs : FS) :
    List (Str × (Option Str × Option Str)) × FS :=
  let (a, fs1) := pm.get_dict c na fs
  let (b, fs2) := pm.get_dict c nb fs1
  let keys := ((dkeys a ++ dkeys b).dedup).insertionSort strLe
  (keys.filterMap
     (fun k =>
       let va := alookup k a
       let vb := alookup k b
       if va ≠ vb then some (k, (va, vb)) else none),
   fs2)

/-- The result of `ProfileManager.copy`: `FileNotFoundError` or the store
returned by `set`. -/
inductive CopyResult where
  | notFound
  | ok (st : EnvStore)
deriving Repr, DecidableEq

/-- `ProfileManager.copy(src_category, src_name, dst_category, dst_name)`:
read the source as a dict, raise `FileNotFoundError` if that dict is falsy,
else `add_category(dst_category)` and `set(dst_category, dst_name, data)`.
`set` with its default `validate=False` never raises, so its write path
`setWrite` is called directly. -/
def PM.copy (pm : PM) (sc sn dc dn : Str) (fs : FS) : CopyResult × PM × FS :=
  let (data, fs1) := pm.get_dict sc sn fs
  if data = [] then (CopyResult.notFound, pm, fs1)
  else
    let (pm1, fs2) := pm.add_category dc none none fs1
    let (st, fs3) := pm1.setWrite dc dn data fs2
    (CopyResult.ok st, pm1, fs3)

/-! ## EnvWatcher (src/getv/watcher.py)

`_scan` enumerates `base_dir/<category>/<name>.env` files; one poll works
on that snapshot.  A snapshot entry carries the file's path (its dict key
in `_scan`'s result), the derived category and profile names, the
modification time `stat().st_mtime`, and the text the callback's fresh
`EnvStore` would read. -/

structure WFile where
  path : Str
  category : Str
  profile : Str
  mtime : Int
  content : Str
deriving Repr, DecidableEq

/-- `self._mtimes`. -/
abbrev Mtimes := List (Str × Int)

/-- One callback invocation attempted by `_check_once`: the arguments
passed to `on_change`, and whether constructing the store or running the
callback raised (the exception is swallowed either way). -/
structure Fired where
  category : Str
  profile : Str
  content : Str
  raised : Bool
deriving Repr, DecidableEq

/-- The per-file loop of `EnvWatcher._check_once`: look up the old mtime,
record the new one, and on a changed previously-known file count one change
and (when a callback is installed) invoke it inside `try/except`. -/
def checkLoop (onChange : Bool) (raises : Str → Bool) :
    List WFile → Mtimes → Nat × Mtimes × List Fired
  | [], m => (0, m, [])
  | f :: rest, m =>
    let old := alookup f.path m
    let m1 := ainsert f.path f.mtime m
    let (c, m2, ev) := checkLoop onChange raises rest m1
    match old with
    | some t =>
      if t ≠ f.mtime then
        (c + 1, m2,
         (if onChange then [⟨f.category, f.profile, f.content, raises f.path⟩] else []) ++ ev)
      else (c, m2, ev)
    | none => (c, m2, ev)

/-- `EnvWatcher._check_once`: run the loop over the scan snapshot, then
drop tracked paths no longer present (`deleted`). -/
def checkOnce (onChange : Bool) (raises : Str → Bool) (files : List WFile)
    (m : Mtimes) : Nat × Mtimes × List Fired :=
  let (c, m1, ev) := checkLoop onChange raises files m
  (c, m1.filter (fun e => e.1 ∈ files.map WFile.path), ev)

/-- `EnvWatcher._scan_initial`: record every file's mtime, no callbacks. -/
def scanInitial (files : List WFile) (m : Mtimes) : Mtimes :=
  files.foldl (fun acc f => ainsert f.path f.mtime acc) m

/-- `EnvWatcher.check()`: run `_scan_initial` first when nothing is tracked
yet, then `_check_once`. -/
def check (onChange : Bool) (raises : Str → Bool) (files : List WFile)
    (m : Mtimes) : Nat × Mtimes × List Fired :=
  checkOnce onChange raises files (if m = [] then scanInitial files m else m)

/-! ## Wellformedness predicates

`save` serializes an entry as the raw text `key=value`.  The entry
round-trips through `_load` only if that text parses back to the same pair:
the key must survive stripping, contain no `=`, and not turn the line into
a comment; the value must survive stripping and quote-stripping.  Newlines
anywhere additionally break the line structure of the written file. -/

/-- Keys whose serialized line is re-identified as the same key. -/
def goodKey (k : Str) : Prop := strip k = k ∧ '=' ∉ k ∧ k.head? ≠ some '#'

/-- Values that `_load`'s stripping and quote-stripping leave unchanged. -/
def cleanVal (v : Str) : Prop := strip v = v ∧ stripQuotes v = v

instance (k : Str) : Decidable (goodKey k) := by
  unfold goodKey; infer_instance

instance (v : Str) : Decidable (cleanVal v) := by
  unfold cleanVal; infer_instance

/-- Strings free of every `str.splitlines` line-boundary character; only
such strings survive as one line of a written file. -/
def noLB (x : Str) : Prop := ∀ c ∈ x, isLineBreak c = false

instance (x : Str) : Decidable (noLB x) := by
  unfold noLB; infer_instance

/-- The normalization `_load` applies to a raw value: strip surrounding
whitespace, then one layer of matching quotes. -/
def normalizeVal (v : Str) : Str := stripQuotes (strip v)

/-- `save` keeps a line verbatim when its stripped form is a comment or
blank: `stripped.startswith("#") or not stripped`. -/
def keptLine (line : Str) : Prop := (strip line).head? = some '#' ∨ strip line = []

instance (line : Str) : Decidable (keptLine line) := by
  unfold keptLine; infer_instance

/-- The key `save` extracts from a non-kept line containing `=`:
`stripped.split("=", 1)[0].strip()`. -/
def lineKey (line : Str) : Option Str :=
  if keptLine line then none
  else (splitEq (strip line)).map (fun p => strip p.1)


/-- The keys contributed by the parseable lines, in order. -/
def parsedKeys (lines : List Str) : List Str :=
  lines.filterMap (fun l => (parseEntry l).map Prod.fst)


/-- The number of key/value lines for key `k` in a line list. -/
def lineKeyCount (k : Str) (lines : List Str) : Nat := (lines.filterMap lineKey).count k


/-- Is `f` a previously-known file whose mtime changed. -/
def changedB (m : Mtimes) (f : WFile) : Bool :=
  match alookup f.path m with
  | some t => decide (t ≠ f.mtime)
  | none => false

/-- The callback invocation for a changed file. -/
def mkFired (raises : Str → Bool) (f : WFile) : Fired :=
  ⟨f.category, f.profile, f.content, raises f.path⟩

/-- The recorded-mtimes update of one poll, before dropping deleted paths. -/
def recordAll (files : List WFile) (m : Mtimes) : Mtimes :=
  files.foldl (fun acc f => ainsert f.path f.mtime acc) m


/-! ## Lemmas about stripping -/

theorem head?_lstrip_not_ws (s : Str) : ∀ c ∈ (lstrip s).head?, pyWS c = false := by
  induction s with
  | nil => intro c hc; simp [lstrip, List.dropWhile] at hc
  | cons a t ih =>
    intro c hc
    by_cases h : pyWS a
    · rw [lstrip, List.dropWhile_cons_of_pos h] at hc
      exact ih c hc
    · rw [lstrip, List.dropWhile_cons_of_neg h] at hc
      simp only [List.head?_cons, Option.mem_def, Option.some.injEq] at hc
      subst hc
      exact Bool.eq_false_iff.mpr h

theorem lstrip_of_head (s : Str) (h : ∀ c ∈ s.head?, pyWS c = false) : lstrip s = s := by
  cases s with
  | nil => rfl
  | cons a t =>
    have ha : pyWS a = false := h a (by simp)
    have ha2 : ¬ (pyWS a = true) := by rw [ha]; simp
    rw [lstrip, List.dropWhile_cons_of_neg ha2]

theorem rstrip_of_last (s : Str) (h : ∀ c ∈ s.getLast?, pyWS c = false) : rstrip s = s := by
  show (lstrip s.reverse).reverse = s
  rw [lstrip_of_head s.reverse (by simpa using h), List.reverse_reverse]

theorem getLast?_rstrip_not_ws (s : Str) : ∀ c ∈ (rstrip s).getLast?, pyWS c = false := by
  intro c hc
  rw [← List.head?_reverse] at hc
  rw [rstrip, List.reverse_reverse] at hc
  exact head?_lstrip_not_ws s.reverse c hc

/-- `rstrip s` is a prefix of `s`. -/
theorem rstrip_append (s : Str) : rstrip s ++ (s.reverse.takeWhile pyWS).reverse = s := by
  rw [rstrip, ← List.reverse_append, List.takeWhile_append_dropWhile, List.reverse_reverse]

/-- `lstrip s` is a suffix of `s`. -/
theorem lstrip_append (s : Str) : s.takeWhile pyWS ++ lstrip s = s := by
  rw [lstrip]; exact List.takeWhile_append_dropWhile pyWS s

theorem head?_rstrip (s : Str) (h : rstrip s ≠ []) : (rstrip s).head? = s.head? := by
  conv_rhs => rw [← rstrip_append s]
  cases hr : rstrip s with
  | nil => exact absurd hr h
  | cons a t => simp [hr]

theorem getLast?_lstrip (s : Str) (h : lstrip s ≠ []) : (lstrip s).getLast? = s.getLast? := by
  conv_rhs => rw [← lstrip_append s]
  rw [List.getLast?_append_of_ne_nil _ h]

theorem mem_lstrip {c : Char} {s : Str} (h : c ∈ lstrip s) : c ∈ s := by
  rw [← lstrip_append s]
  exact List.mem_append_right _ h

theorem mem_rstrip {c : Char} {s : Str} (h : c ∈ rstrip s) : c ∈ s := by
  rw [← rstrip_append s]
  exact List.mem_append_left _ h

theorem mem_strip {c : Char} {s : Str} (h : c ∈ strip s) : c ∈ s :=
  mem_lstrip (mem_rstrip h)

theorem head?_strip_not_ws (s : Str) : ∀ c ∈ (strip s).head?, pyWS c = false := by
  intro c hc
  by_cases hr : rstrip (lstrip s) = []
  · rw [strip] at hc; rw [hr] at hc; simp at hc
  · rw [strip, head?_rstrip _ hr] at hc
    exact head?_lstrip_not_ws s c hc

theorem getLast?_strip_not_ws (s : Str) : ∀ c ∈ (strip s).getLast?, pyWS c = false :=
  getLast?_rstrip_not_ws (lstrip s)

theorem strip_idem (s : Str) : strip (strip s) = strip s := by
  rw [strip, lstrip_of_head _ (head?_strip_not_ws s),
    rstrip_of_last _ (getLast?_strip_not_ws s)]

theorem lstrip_eq_self_of_strip (s : Str) (h : strip s = s) : lstrip s = s := by
  apply lstrip_of_head
  intro c hc
  rw [← h] at hc
  exact head?_strip_not_ws s c hc

theorem rstrip_eq_self_of_strip (s : Str) (h : strip s = s) : rstrip s = s := by
  have hl := lstrip_eq_self_of_strip s h
  rw [strip, hl] at h
  exact h

theorem strip_eq_self_of_parts (s : Str) (hl : lstrip s = s) (hr : rstrip s = s) :
    strip s = s := by rw [strip, hl, hr]

/-! ## Lemmas about splitting on the first equals sign -/

theorem splitEq_append (k w : Str) (h : '=' ∉ k) : splitEq (k ++ '=' :: w) = some (k, w) := by
  induction k with
  | nil => simp [splitEq]
  | cons c t ih =>
    have hc : c ≠ '=' := by intro hc; exact h (by simp [hc])
    have ht : '=' ∉ t := fun hm => h (by simp [hm])
    simp [splitEq, hc, ih ht]

theorem splitEq_some {s a b : Str} (h : splitEq s = some (a, b)) :
    s = a ++ '=' :: b ∧ '=' ∉ a := by
  induction s generalizing a b with
  | nil => simp [splitEq] at h
  | cons c t ih =>
    by_cases hc : c = '='
    · subst hc
      simp only [splitEq, if_pos rfl, Option.some.injEq, Prod.mk.injEq] at h
      obtain ⟨rfl, rfl⟩ := h
      exact ⟨rfl, by simp⟩
    · simp only [splitEq, if_neg hc, Option.map_eq_some'] at h
      obtain ⟨⟨a', b'⟩, hp, he⟩ := h
      simp only [Prod.mk.injEq] at he
      obtain ⟨rfl, rfl⟩ := he
      obtain ⟨h1, h2⟩ := ih hp
      refine ⟨by rw [h1]; rfl, ?_⟩
      intro hm
      rcases List.mem_cons.mp hm with h3 | h3
      · exact hc h3.symm
      · exact h2 h3

theorem splitEq_eq_none {s : Str} (h : '=' ∉ s) : splitEq s = none := by
  induction s with
  | nil => rfl
  | cons c t ih =>
    have hc : c ≠ '=' := by intro hc; exact h (by simp [hc])
    have ht : '=' ∉ t := fun hm => h (by simp [hm])
    simp [splitEq, hc, ih ht]

/-! ## Lemmas about the serialized line of one entry -/

theorem dropWhile_append_not (a b : Str) (m : Char) (hm : pyWS m = false) :
    List.dropWhile pyWS (a ++ m :: b) = List.dropWhile pyWS a ++ m :: b := by
  rw [List.dropWhile_append]
  have hb : List.dropWhile pyWS (m :: b) = m :: b :=
    List.dropWhile_cons_of_neg (by rw [hm]; simp)
  by_cases h : (a.dropWhile pyWS).isEmpty
  · rw [if_pos h, hb, List.isEmpty_iff.mp h, List.nil_append]
  · rw [if_neg h]

theorem rstrip_idem (s : Str) : rstrip (rstrip s) = rstrip s :=
  rstrip_of_last _ (getLast?_rstrip_not_ws s)

theorem rstrip_append_not_ws (u t : Str) (c : Char) (hc : pyWS c = false) :
    rstrip (u ++ c :: t) = u ++ c :: rstrip t := by
  show (List.dropWhile pyWS (u ++ c :: t).reverse).reverse = _
  rw [List.reverse_append, List.reverse_cons, List.append_assoc, List.singleton_append,
    dropWhile_append_not _ _ _ hc, List.reverse_append, List.reverse_cons,
    List.reverse_reverse, List.append_assoc, List.singleton_append]
  rfl

theorem rstrip_cons_not_ws (c : Char) (t : Str) (hc : pyWS c = false) :
    rstrip (c :: t) = c :: rstrip t := by
  have h := rstrip_append_not_ws [] t c hc
  simpa using h

theorem lstrip_ws_append (u r : Str) (hu : ∀ d ∈ u, pyWS d = true) :
    lstrip (u ++ r) = lstrip r := by
  show List.dropWhile pyWS (u ++ r) = List.dropWhile pyWS r
  rw [List.dropWhile_append, List.dropWhile_eq_nil_iff.mpr hu]
  rfl

theorem lstrip_rstrip (s : Str) : lstrip (rstrip s) = rstrip (lstrip s) := by
  cases hls : lstrip s with
  | nil =>
    have hall : ∀ c ∈ s, pyWS c = true := List.dropWhile_eq_nil_iff.mp hls
    have hrs : rstrip s = [] := by
      show (List.dropWhile pyWS s.reverse).reverse = []
      rw [List.dropWhile_eq_nil_iff.mpr (fun c hc => hall c (List.mem_reverse.mp hc))]
      rfl
    rw [hrs]
    rfl
  | cons c t =>
    have hc : pyWS c = false := head?_lstrip_not_ws s c (by rw [hls]; rfl)
    have hu : ∀ d ∈ s.takeWhile pyWS, pyWS d = true := fun d hd => List.mem_takeWhile_imp hd
    have hsplit : s = s.takeWhile pyWS ++ c :: t := by
      have h0 := lstrip_append s
      rw [hls] at h0
      exact h0.symm
    have h1 : rstrip s = s.takeWhile pyWS ++ c :: rstrip t := by
      conv_lhs => rw [hsplit]
      exact rstrip_append_not_ws _ t c hc
    rw [h1, lstrip_ws_append _ _ hu, rstrip_cons_not_ws c t hc]
    exact lstrip_of_head _ (fun d hd => by
      simp only [List.head?_cons, Option.mem_def, Option.some.injEq] at hd
      rw [← hd]
      exact hc)

theorem strip_rstrip (v : Str) : strip (rstrip v) = strip v := by
  rw [strip, lstrip_rstrip, rstrip_idem, strip]

theorem rstrip_mkLine (k v : Str) : rstrip (mkLine k v) = k ++ '=' :: rstrip v := by
  show (List.dropWhile pyWS (k ++ '=' :: v).reverse).reverse = _
  have h1 : (k ++ '=' :: v).reverse = v.reverse ++ '=' :: k.reverse := by
    rw [List.reverse_append, List.reverse_cons, List.append_assoc, List.singleton_append]
  rw [h1, dropWhile_append_not _ _ _ (by decide), List.reverse_append, List.reverse_cons,
    List.reverse_reverse, List.append_assoc, List.singleton_append]
  rfl

theorem strip_mkLine (k v : Str) (hs : strip k = k) :
    strip (mkLine k v) = k ++ '=' :: rstrip v := by
  have hls : lstrip (mkLine k v) = mkLine k v := by
    cases k with
    | nil =>
      show List.dropWhile pyWS ('=' :: v) = '=' :: v
      exact List.dropWhile_cons_of_neg (by decide)
    | cons c t =>
      have hl : lstrip (c :: t) = c :: t := lstrip_eq_self_of_strip _ hs
      have hc : pyWS c = false := head?_lstrip_not_ws (c :: t) c (by rw [hl]; simp)
      show List.dropWhile pyWS (c :: (t ++ '=' :: v)) = _
      exact List.dropWhile_cons_of_neg (by rw [hc]; simp)
  rw [strip, hls, rstrip_mkLine]

theorem strip_mkLine_ne_nil (k v : Str) (hs : strip k = k) : strip (mkLine k v) ≠ [] := by
  rw [strip_mkLine k v hs]
  simp

theorem head?_strip_mkLine (k v : Str) (hk : goodKey k) :
    (strip (mkLine k v)).head? ≠ some '#' := by
  rw [strip_mkLine k v hk.1]
  cases k with
  | nil => simp
  | cons c t =>
    have := hk.2.2
    simpa using this

theorem splitEq_strip_mkLine (k v : Str) (hk : goodKey k) :
    splitEq (strip (mkLine k v)) = some (k, rstrip v) := by
  rw [strip_mkLine k v hk.1]
  exact splitEq_append k (rstrip v) hk.2.1

theorem parseEntry_mkLine (k v : Str) (hk : goodKey k) (hv : cleanVal v) :
    parseEntry (mkLine k v) = some (k, v) := by
  have hrv : rstrip v = v := rstrip_eq_self_of_strip v hv.1
  rw [parseEntry]
  simp only [strip_mkLine_ne_nil k v hk.1, if_neg, head?_strip_mkLine k v hk,
    splitEq_strip_mkLine k v hk, hrv]
  simp [hk.1, hv.1, hv.2]

theorem normalizeVal_of_clean {v : Str} (hv : cleanVal v) : normalizeVal v = v := by
  rw [normalizeVal, hv.1, hv.2]

/-- The serialized line of any key/value pair parses back to the key and the
normalized (stripped, quote-stripped) value — no cleanliness needed. -/
theorem parseEntry_mkLine_norm (k v : Str) (hk : goodKey k) :
    parseEntry (mkLine k v) = some (k, normalizeVal v) := by
  rw [parseEntry]
  simp only [strip_mkLine_ne_nil k v hk.1, if_neg, head?_strip_mkLine k v hk,
    splitEq_strip_mkLine k v hk]
  rw [hk.1, strip_rstrip]
  simp [normalizeVal]

/-! ## Classifying lines the way `save` does -/

theorem mkLine_not_kept (k v : Str) (hk : goodKey k) : ¬ keptLine (mkLine k v) := by
  intro h
  rcases h with h | h
  · exact head?_strip_mkLine k v hk h
  · exact strip_mkLine_ne_nil k v hk.1 h

theorem lineKey_mkLine (k v : Str) (hk : goodKey k) : lineKey (mkLine k v) = some k := by
  rw [lineKey, if_neg (mkLine_not_kept k v hk), splitEq_strip_mkLine k v hk]
  simp [hk.1]

/-- The key parsed out of any non-kept `=`-line is itself a good key. -/
theorem lineKey_goodKey (line kraw rest : Str) (hkept : ¬ keptLine line)
    (hsplit : splitEq (strip line) = some (kraw, rest)) : goodKey (strip kraw) := by
  obtain ⟨hline, hnomem⟩ := splitEq_some hsplit
  refine ⟨strip_idem kraw, ?_, ?_⟩
  · intro hm
    exact hnomem (mem_strip hm)
  · by_cases hnil0 : strip kraw = []
    · rw [hnil0]; simp
    · have hkne : kraw ≠ [] := by
        intro h0
        rw [h0] at hnil0
        exact hnil0 rfl
      have hheadk : kraw.head? = (strip line).head? := by
        rw [hline]
        cases kraw with
        | nil => exact absurd rfl hkne
        | cons c t => rfl
      have hcws : ∀ c ∈ kraw.head?, pyWS c = false := by
        intro c hc
        apply head?_lstrip_not_ws (strip line) c
        rw [lstrip_eq_self_of_strip _ (strip_idem line), ← hheadk]
        exact hc
      have hlk : lstrip kraw = kraw := lstrip_of_head kraw hcws
      have hsk : strip kraw = rstrip kraw := by rw [strip, hlk]
      rw [hsk] at hnil0 ⊢
      rw [head?_rstrip kraw hnil0, hheadk]
      intro hhash
      exact hkept (Or.inl hhash)

/-- Kept lines and lines without `=` never contribute an entry on load. -/
theorem parseEntry_eq_none_of_kept (line : Str) (h : keptLine line) :
    parseEntry line = none := by
  rw [parseEntry]
  rcases h with h | h
  · by_cases hn : strip line = []
    · simp [hn]
    · simp [hn, h]
  · simp [h]

theorem parseEntry_eq_none_of_noEq (line : Str) (h : splitEq (strip line) = none) :
    parseEntry line = none := by
  rw [parseEntry]
  by_cases hn : strip line = []
  · simp [hn]
  · by_cases hh : (strip line).head? = some '#'
    · simp [hn, hh]
    · simp [hn, hh, h]

theorem lineKey_of_not_kept (line kraw rest : Str) (hkept : ¬ keptLine line)
    (hsplit : splitEq (strip line) = some (kraw, rest)) :
    lineKey line = some (strip kraw) := by
  rw [lineKey, if_neg hkept, hsplit]
  rfl

/-- A line with a key parses to an entry with the same key. -/
theorem parseEntry_of_lineKey (line k : Str) (h : lineKey line = some k) :
    ∃ v, parseEntry line = some (k, v) := by
  rw [lineKey] at h
  by_cases hkept : keptLine line
  · rw [if_pos hkept] at h; cases h
  · rw [if_neg hkept] at h
    cases hsplit : splitEq (strip line) with
    | none => rw [hsplit] at h; cases h
    | some p =>
      rw [hsplit] at h
      obtain ⟨kraw, rest⟩ := p
      simp only [Option.map_some', Option.some.injEq] at h
      refine ⟨stripQuotes (strip rest), ?_⟩
      rw [parseEntry]
      have hn : strip line ≠ [] := by
        intro hnil
        exact hkept (Or.inr hnil)
      have hh : (strip line).head? ≠ some '#' := by
        intro hhash
        exact hkept (Or.inl hhash)
      simp only [if_neg hn, if_neg hh, hsplit]
      rw [h]

/-! ## Dictionary lemmas -/

theorem alookup_ainsert {β : Type} (k k' : Str) (v : β) (d : List (Str × β)) :
    alookup k (ainsert k' v d) = if k' = k then some v else alookup k d := by
  induction d with
  | nil => simp [ainsert, alookup]
  | cons p d ih =>
    obtain ⟨k0, v0⟩ := p
    by_cases h0 : k0 = k'
    · subst h0
      rw [ainsert, if_pos rfl]
      by_cases hk : k0 = k
      · subst hk; simp [alookup]
      · simp [alookup, hk]
    · rw [ainsert, if_neg h0]
      by_cases hk : k0 = k
      · subst hk
        have : ¬ k' = k0 := fun h => h0 h.symm
        simp [alookup, this]
      · simp [alookup, hk, ih]

theorem mem_ainsert {β : Type} {p : Str × β} {k : Str} {v : β} {d : List (Str × β)}
    (h : p ∈ ainsert k v d) : p = (k, v) ∨ p ∈ d := by
  induction d with
  | nil => simpa [ainsert] using h
  | cons q d ih =>
    rw [ainsert] at h
    by_cases h0 : q.1 = k
    · rw [if_pos h0] at h
      rcases List.mem_cons.mp h with h1 | h1
      · left; rw [h1, ← h0]
      · right; exact List.mem_cons_of_mem _ h1
    · rw [if_neg h0] at h
      rcases List.mem_cons.mp h with h1 | h1
      · right; rw [h1]; exact List.mem_cons_self _ _
      · rcases ih h1 with h2 | h2
        · left; exact h2
        · right; exact List.mem_cons_of_mem _ h2

theorem mem_of_alookup {β : Type} {k : Str} {v : β} {d : List (Str × β)}
    (h : alookup k d = some v) : (k, v) ∈ d := by
  induction d with
  | nil => cases h
  | cons p d ih =>
    rw [alookup] at h
    by_cases h0 : p.1 = k
    · rw [if_pos h0] at h
      obtain rfl := Option.some.inj h
      refine List.mem_cons.mpr (Or.inl ?_)
      rw [← h0]
    · rw [if_neg h0] at h
      exact List.mem_cons_of_mem _ (ih h)

theorem alookup_eq_none {β : Type} {k : Str} {d : List (Str × β)} :
    alookup k d = none ↔ k ∉ d.map Prod.fst := by
  induction d with
  | nil => simp [alookup]
  | cons p d ih =>
    rw [alookup, List.map_cons]
    by_cases h0 : p.1 = k
    · rw [if_pos h0]
      constructor
      · intro h; cases h
      · intro h
        exfalso
        apply h
        rw [← h0]
        exact List.mem_cons_self _ _
    · rw [if_neg h0, ih]
      constructor
      · intro h hm
        rcases List.mem_cons.mp hm with hm | hm
        · exact h0 hm.symm
        · exact h hm
      · intro h hm
        exact h (List.mem_cons_of_mem _ hm)

theorem alookup_of_mem_nodup {β : Type} {k : Str} {v : β} {d : List (Str × β)}
    (hnd : (d.map Prod.fst).Nodup) (h : (k, v) ∈ d) : alookup k d = some v := by
  induction d with
  | nil => cases h
  | cons p d ih =>
    rw [List.map_cons] at hnd
    have hnd2 := List.nodup_cons.mp hnd
    rcases List.mem_cons.mp h with h1 | h1
    · rw [← h1, alookup, if_pos rfl]
    · rw [alookup]
      have hk : p.1 ≠ k := by
        intro he
        have hm : k ∈ d.map Prod.fst := List.mem_map.mpr ⟨(k, v), h1, rfl⟩
        rw [← he] at hm
        exact hnd2.1 hm
      rw [if_neg hk]
      exact ih hnd2.2 h1

theorem alookup_map {β γ : Type} (f : β → γ) (k : Str) (d : List (Str × β)) :
    alookup k (d.map (fun p => (p.1, f p.2))) = (alookup k d).map f := by
  induction d with
  | nil => rfl
  | cons p d ih =>
    obtain ⟨k0, v0⟩ := p
    rw [List.map_cons]
    dsimp only
    rw [alookup, alookup]
    by_cases h : k0 = k
    · rw [if_pos h, if_pos h]
      rfl
    · rw [if_neg h, if_neg h, ih]

theorem map_fst_map_snd {β γ : Type} (f : β → γ) (d : List (Str × β)) :
    (d.map (fun p => (p.1, f p.2))).map Prod.fst = d.map Prod.fst := by
  rw [List.map_map]
  rfl

theorem map_fst_ainsert {β : Type} (k : Str) (v : β) (d : List (Str × β)) :
    (ainsert k v d).map Prod.fst =
      if k ∈ d.map Prod.fst then d.map Prod.fst else d.map Prod.fst ++ [k] := by
  induction d with
  | nil => simp [ainsert]
  | cons p d ih =>
    obtain ⟨k0, v0⟩ := p
    rw [ainsert]
    by_cases h0 : k0 = k
    · subst h0
      have hmem : k0 ∈ ((k0, v0) :: d).map Prod.fst := by
        rw [List.map_cons]; exact List.mem_cons_self _ _
      rw [if_pos rfl, if_pos hmem]
      rfl
    · rw [if_neg h0, List.map_cons, List.map_cons, ih]
      by_cases hm : k ∈ d.map Prod.fst
      · have hmem : k ∈ (k0, v0).1 :: d.map Prod.fst := List.mem_cons_of_mem _ hm
        rw [if_pos hm, if_pos hmem]
      · have hnotin : k ∉ (k0, v0).1 :: d.map Prod.fst := by
          intro hc
          rcases List.mem_cons.mp hc with hc | hc
          · exact h0 hc.symm
          · exact hm hc
        rw [if_neg hm, if_neg hnotin, List.cons_append]

theorem nodup_ainsert {β : Type} {k : Str} {v : β} {d : List (Str × β)}
    (hnd : (d.map Prod.fst).Nodup) : ((ainsert k v d).map Prod.fst).Nodup := by
  rw [map_fst_ainsert]
  by_cases hm : k ∈ d.map Prod.fst
  · rw [if_pos hm]; exact hnd
  · rw [if_neg hm]
    simp [List.nodup_append, hnd, hm]

theorem mem_dupdate {p : Str × Str} {d m : Dict} (h : p ∈ dupdate d m) :
    p ∈ d ∨ p ∈ m := by
  induction m generalizing d with
  | nil => exact Or.inl h
  | cons q m ih =>
    rw [dupdate, List.foldl_cons] at h
    rcases ih (by rw [dupdate]; exact h) with h1 | h1
    · rcases mem_ainsert h1 with h2 | h2
      · right
        rw [h2]
        have : (q.1, q.2) = q := rfl
        rw [this]
        exact List.mem_cons_self _ _
      · exact Or.inl h2
    · exact Or.inr (List.mem_cons_of_mem _ h1)

theorem nodup_dupdate {d m : Dict} (hnd : (d.map Prod.fst).Nodup) :
    ((dupdate d m).map Prod.fst).Nodup := by
  induction m generalizing d with
  | nil => exact hnd
  | cons q m ih =>
    rw [dupdate, List.foldl_cons]
    exact ih (nodup_ainsert hnd)

theorem alookup_dupdate {d m : Dict} (hm : (m.map Prod.fst).Nodup) (k : Str) :
    alookup k (dupdate d m) = (alookup k m).or (alookup k d) := by
  induction m generalizing d with
  | nil => simp [dupdate, alookup]
  | cons q m ih =>
    rw [List.map_cons] at hm
    have hm2 := List.nodup_cons.mp hm
    rw [dupdate, List.foldl_cons]
    have step : m.foldl (fun acc p => ainsert p.1 p.2 acc) (ainsert q.1 q.2 d)
        = dupdate (ainsert q.1 q.2 d) m := rfl
    rw [step, ih hm2.2]
    rw [alookup_ainsert]
    by_cases hq : q.1 = k
    · have hknm : alookup k m = none := by
        rw [alookup_eq_none]
        rw [← hq]
        exact hm2.1
      rw [if_pos hq, hknm]
      have : alookup k (q :: m) = some q.2 := by rw [alookup, if_pos hq]
      rw [this]
      rfl
    · rw [if_neg hq]
      have : alookup k (q :: m) = alookup k m := by rw [alookup, if_neg hq]
      rw [this]

/-! ## Loading lemmas -/

theorem loadFold_mem {p : Str × Str} (lines : List Str) (d0 : Dict)
    (h : p ∈ lines.foldl loadStep d0) :
    p ∈ d0 ∨ ∃ line ∈ lines, parseEntry line = some p := by
  induction lines generalizing d0 with
  | nil => exact Or.inl h
  | cons l rest ih =>
    rw [List.foldl_cons] at h
    rcases ih (loadStep d0 l) h with h1 | h1
    · rw [loadStep] at h1
      cases hp : parseEntry l with
      | none => rw [hp] at h1; exact Or.inl h1
      | some q =>
        rw [hp] at h1
        rcases mem_ainsert h1 with h2 | h2
        · right
          refine ⟨l, List.mem_cons_self _ _, ?_⟩
          rw [hp, h2]
        · exact Or.inl h2
    · obtain ⟨line, hmem, hpe⟩ := h1
      exact Or.inr ⟨line, List.mem_cons_of_mem _ hmem, hpe⟩

theorem loadData_mem {p : Str × Str} {lines : List Str} (h : p ∈ loadData lines) :
    ∃ line ∈ lines, parseEntry line = some p := by
  rcases loadFold_mem lines [] h with h1 | h1
  · cases h1
  · exact h1

theorem nodup_loadFold (lines : List Str) (d0 : Dict)
    (h : (d0.map Prod.fst).Nodup) : ((lines.foldl loadStep d0).map Prod.fst).Nodup := by
  induction lines generalizing d0 with
  | nil => exact h
  | cons l rest ih =>
    rw [List.foldl_cons]
    apply ih
    rw [loadStep]
    cases hp : parseEntry l with
    | none => exact h
    | some q => exact nodup_ainsert h

theorem loadData_nodup (lines : List Str) : ((loadData lines).map Prod.fst).Nodup :=
  nodup_loadFold lines [] List.nodup_nil

theorem loadFold_lookup (data : Dict) (lines : List Str)
    (H : ∀ line ∈ lines, ∀ p, parseEntry line = some p → alookup p.1 data = some p.2)
    (d0 : Dict) (k : Str) :
    alookup k (lines.foldl loadStep d0) =
      if k ∈ parsedKeys lines then alookup k data else alookup k d0 := by
  induction lines generalizing d0 with
  | nil => simp [parsedKeys]
  | cons l rest ih =>
    have Hl := H l (List.mem_cons_self _ _)
    have Hrest : ∀ line ∈ rest, ∀ p, parseEntry line = some p → alookup p.1 data = some p.2 :=
      fun line hm => H line (List.mem_cons_of_mem _ hm)
    rw [List.foldl_cons, loadStep]
    cases hp : parseEntry l with
    | none =>
      rw [ih Hrest d0]
      have : parsedKeys (l :: rest) = parsedKeys rest := by
        rw [parsedKeys, List.filterMap_cons, hp]
        rfl
      rw [this]
    | some q =>
      obtain ⟨k0, v0⟩ := q
      have hpk : parsedKeys (l :: rest) = k0 :: parsedKeys rest := by
        rw [parsedKeys, List.filterMap_cons, hp]
        rfl
      rw [ih Hrest (ainsert k0 v0 d0), hpk]
      by_cases hk : k ∈ parsedKeys rest
      · rw [if_pos hk, if_pos (List.mem_cons_of_mem _ hk)]
      · rw [if_neg hk, alookup_ainsert]
        by_cases h0 : k0 = k
        · subst h0
          rw [if_pos rfl, if_pos (List.mem_cons_self _ _)]
          exact (Hl (k0, v0) hp).symm
        · rw [if_neg h0]
          have : k ∉ k0 :: parsedKeys rest := by
            intro hc
            rcases List.mem_cons.mp hc with hc | hc
            · exact h0 hc.symm
            · exact hk hc
          rw [if_neg this]

theorem loadData_lookup (data : Dict) (lines : List Str)
    (H : ∀ line ∈ lines, ∀ p, parseEntry line = some p → alookup p.1 data = some p.2)
    (Hcover : ∀ k ∈ data.map Prod.fst, k ∈ parsedKeys lines) (k : Str) :
    alookup k (loadData lines) = alookup k data := by
  rw [loadData, loadFold_lookup data lines H [] k]
  by_cases hk : k ∈ parsedKeys lines
  · rw [if_pos hk]
  · rw [if_neg hk]
    have : alookup k data = none := by
      rw [alookup_eq_none]
      intro hm
      exact hk (Hcover k hm)
    rw [this]
    rfl

/-! ## Saving lemmas -/

theorem saveWalk_cons_kept (data : Dict) (line : Str) (rest : List Str)
    (h : keptLine line) :
    saveWalk data (line :: rest) =
      (line :: (saveWalk data rest).1, (saveWalk data rest).2) := by
  rcases hsw : saveWalk data rest with ⟨ls, w⟩
  rw [saveWalk]
  rcases h with h | h <;> simp [h, hsw]

theorem saveWalk_cons_some (data : Dict) (line kraw rest' : Str) (v : Str)
    (rest : List Str) (hkept : ¬ keptLine line)
    (hsplit : splitEq (strip line) = some (kraw, rest'))
    (hlook : alookup (strip kraw) data = some v) :
    saveWalk data (line :: rest) =
      (mkLine (strip kraw) v :: (saveWalk data rest).1,
       strip kraw :: (saveWalk data rest).2) := by
  rcases hsw : saveWalk data rest with ⟨ls, w⟩
  have h1 : ¬ ((strip line).head? = some '#' ∨ strip line = []) := hkept
  rw [saveWalk]
  simp only [if_neg h1, hsplit, hlook, hsw]

theorem saveWalk_cons_del (data : Dict) (line kraw rest' : Str)
    (rest : List Str) (hkept : ¬ keptLine line)
    (hsplit : splitEq (strip line) = some (kraw, rest'))
    (hlook : alookup (strip kraw) data = none) :
    saveWalk data (line :: rest) = saveWalk data rest := by
  have h1 : ¬ ((strip line).head? = some '#' ∨ strip line = []) := hkept
  rw [saveWalk]
  simp only [if_neg h1, hsplit, hlook]

theorem saveWalk_cons_noEq (data : Dict) (line : Str) (rest : List Str)
    (hkept : ¬ keptLine line) (hsplit : splitEq (strip line) = none) :
    saveWalk data (line :: rest) =
      (line :: (saveWalk data rest).1, (saveWalk data rest).2) := by
  rcases hsw : saveWalk data rest with ⟨ls, w⟩
  have h1 : ¬ ((strip line).head? = some '#' ∨ strip line = []) := hkept
  rw [saveWalk]
  simp only [if_neg h1, hsplit, hsw]

theorem saveWalk_append (data : Dict) (a b : List Str) :
    saveWalk data (a ++ b) =
      ((saveWalk data a).1 ++ (saveWalk data b).1,
       (saveWalk data a).2 ++ (saveWalk data b).2) := by
  induction a with
  | nil => simp [saveWalk]
  | cons line rest ih =>
    rw [List.cons_append]
    by_cases hkept : keptLine line
    · rw [saveWalk_cons_kept data line _ hkept, saveWalk_cons_kept data line _ hkept, ih]
      rfl
    · cases hsplit : splitEq (strip line) with
      | none =>
        rw [saveWalk_cons_noEq data line _ hkept hsplit,
          saveWalk_cons_noEq data line _ hkept hsplit, ih]
        rfl
      | some p =>
        obtain ⟨kraw, rest'⟩ := p
        cases hlook : alookup (strip kraw) data with
        | none =>
          rw [saveWalk_cons_del data line kraw rest' _ hkept hsplit hlook,
            saveWalk_cons_del data line kraw rest' _ hkept hsplit hlook, ih]
        | some v =>
          rw [saveWalk_cons_some data line kraw rest' v _ hkept hsplit hlook,
            saveWalk_cons_some data line kraw rest' v _ hkept hsplit hlook, ih]
          rfl

/-- The keys written by the walk are exactly the line keys of its output,
in order. -/
theorem saveWalk_fst_lineKeys (data : Dict) (raw : List Str) :
    (saveWalk data raw).1.filterMap lineKey = (saveWalk data raw).2 := by
  induction raw with
  | nil => rfl
  | cons line rest ih =>
    by_cases hkept : keptLine line
    · rw [saveWalk_cons_kept data line _ hkept]
      have hlk : lineKey line = none := by rw [lineKey, if_pos hkept]
      simp only [List.filterMap_cons, hlk]
      exact ih
    · cases hsplit : splitEq (strip line) with
      | none =>
        rw [saveWalk_cons_noEq data line _ hkept hsplit]
        have hlk : lineKey line = none := by
          rw [lineKey, if_neg hkept, hsplit]
          rfl
        simp only [List.filterMap_cons, hlk]
        exact ih
      | some p =>
        obtain ⟨kraw, rest'⟩ := p
        cases hlook : alookup (strip kraw) data with
        | none => rw [saveWalk_cons_del data line kraw rest' _ hkept hsplit hlook]; exact ih
        | some v =>
          rw [saveWalk_cons_some data line kraw rest' v _ hkept hsplit hlook]
          have hgood : goodKey (strip kraw) := lineKey_goodKey line kraw rest' hkept hsplit
          simp only [List.filterMap_cons, lineKey_mkLine _ v hgood]
          rw [ih]

/-- The written keys are the line keys of the original lines that are still
present in the data, in order. -/
theorem saveWalk_snd_filter (data : Dict) (raw : List Str) :
    (saveWalk data raw).2 =
      (raw.filterMap lineKey).filter (fun k => (alookup k data).isSome) := by
  induction raw with
  | nil => rfl
  | cons line rest ih =>
    by_cases hkept : keptLine line
    · rw [saveWalk_cons_kept data line _ hkept]
      have hlk : lineKey line = none := by rw [lineKey, if_pos hkept]
      simp only [List.filterMap_cons, hlk]
      exact ih
    · cases hsplit : splitEq (strip line) with
      | none =>
        rw [saveWalk_cons_noEq data line _ hkept hsplit]
        have hlk : lineKey line = none := by
          rw [lineKey, if_neg hkept, hsplit]
          rfl
        simp only [List.filterMap_cons, hlk]
        exact ih
      | some p =>
        obtain ⟨kraw, rest'⟩ := p
        have hlk : lineKey line = some (strip kraw) :=
          lineKey_of_not_kept line kraw rest' hkept hsplit
        cases hlook : alookup (strip kraw) data with
        | none =>
          rw [saveWalk_cons_del data line kraw rest' _ hkept hsplit hlook]
          simp only [List.filterMap_cons, hlk, List.filter_cons]
          rw [hlook]
          simpa using ih
        | some v =>
          rw [saveWalk_cons_some data line kraw rest' v _ hkept hsplit hlook]
          simp only [List.filterMap_cons, hlk, List.filter_cons]
          rw [hlook]
          simpa using ih

/-- The kept (comment/blank) lines of the walk output are exactly those of
the input, verbatim and in order. -/
theorem saveWalk_fst_kept (data : Dict) (raw : List Str) :
    (saveWalk data raw).1.filter (fun l => decide (keptLine l))
      = raw.filter (fun l => decide (keptLine l)) := by
  induction raw with
  | nil => rfl
  | cons line rest ih =>
    by_cases hkept : keptLine line
    · rw [saveWalk_cons_kept data line _ hkept]
      simp only [List.filter_cons, decide_eq_true hkept]
      rw [ih]
    · cases hsplit : splitEq (strip line) with
      | none =>
        rw [saveWalk_cons_noEq data line _ hkept hsplit]
        simp only [List.filter_cons, decide_eq_false hkept]
        exact ih
      | some p =>
        obtain ⟨kraw, rest'⟩ := p
        cases hlook : alookup (strip kraw) data with
        | none =>
          rw [saveWalk_cons_del data line kraw rest' _ hkept hsplit hlook]
          simp only [List.filter_cons, decide_eq_false hkept]
          exact ih
        | some v =>
          rw [saveWalk_cons_some data line kraw rest' v _ hkept hsplit hlook]
          have hgood : goodKey (strip kraw) := lineKey_goodKey line kraw rest' hkept hsplit
          simp only [List.filter_cons, decide_eq_false (mkLine_not_kept _ v hgood),
            decide_eq_false hkept]
          exact ih

/-- Re-walking the walk's own output reproduces it (same data). -/
theorem saveWalk_stable (data : Dict) (raw : List Str) :
    saveWalk data (saveWalk data raw).1 = saveWalk data raw := by
  induction raw with
  | nil => rfl
  | cons line rest ih =>
    by_cases hkept : keptLine line
    · rw [saveWalk_cons_kept data line rest hkept,
        saveWalk_cons_kept data line _ hkept, ih]
    · cases hsplit : splitEq (strip line) with
      | none =>
        rw [saveWalk_cons_noEq data line rest hkept hsplit,
          saveWalk_cons_noEq data line _ hkept hsplit, ih]
      | some p =>
        obtain ⟨kraw, rest'⟩ := p
        cases hlook : alookup (strip kraw) data with
        | none => rw [saveWalk_cons_del data line kraw rest' rest hkept hsplit hlook]; exact ih
        | some v =>
          rw [saveWalk_cons_some data line kraw rest' v rest hkept hsplit hlook]
          have hgood : goodKey (strip kraw) := lineKey_goodKey line kraw rest' hkept hsplit
          have hlook2 : alookup (strip (strip kraw)) data = some v := by
            rw [hgood.1]; exact hlook
          rw [saveWalk_cons_some data (mkLine (strip kraw) v) (strip kraw) (rstrip v) v _
            (mkLine_not_kept _ v hgood) (splitEq_strip_mkLine _ v hgood) hlook2, ih, hgood.1]

/-- Walking a list of freshly serialized entries rewrites each in place. -/
theorem saveWalk_pairs (data : Dict) (q : List (Str × Str))
    (h : ∀ p ∈ q, goodKey p.1 ∧ alookup p.1 data = some p.2) :
    saveWalk data (q.map (fun p => mkLine p.1 p.2)) =
      (q.map (fun p => mkLine p.1 p.2), q.map Prod.fst) := by
  induction q with
  | nil => rfl
  | cons p q ih =>
    have hp := h p (List.mem_cons_self _ _)
    have hq : ∀ r ∈ q, goodKey r.1 ∧ alookup r.1 data = some r.2 :=
      fun r hr => h r (List.mem_cons_of_mem _ hr)
    have hlook2 : alookup (strip p.1) data = some p.2 := by
      rw [hp.1.1]; exact hp.2
    rw [List.map_cons,
      saveWalk_cons_some data (mkLine p.1 p.2) p.1 (rstrip p.2) p.2 _
        (mkLine_not_kept _ p.2 hp.1) (splitEq_strip_mkLine _ p.2 hp.1) hlook2,
      ih hq, hp.1.1, List.map_cons]

theorem saveNewLines_def (st : EnvStore) :
    saveNewLines st =
      (saveWalk st.data st.raw).1 ++
        (st.data.filter (fun p => ¬ p.1 ∈ (saveWalk st.data st.raw).2)).map
          (fun p => mkLine p.1 p.2) := by
  rw [saveNewLines]

/-- Saving the same in-memory data twice produces the same line list. -/
theorem saveNewLines_idem (data : Dict) (raw : List Str)
    (hk : ∀ p ∈ data, goodKey p.1) (hnd : (data.map Prod.fst).Nodup) :
    saveNewLines (EnvStore.mk data (saveNewLines (EnvStore.mk data raw)))
      = saveNewLines (EnvStore.mk data raw) := by
  have hq : ∀ p ∈ data.filter (fun p => ¬ p.1 ∈ (saveWalk data raw).2),
      goodKey p.1 ∧ alookup p.1 data = some p.2 := by
    intro p hp
    have hpd : p ∈ data := List.mem_of_mem_filter hp
    exact ⟨hk p hpd, alookup_of_mem_nodup hnd hpd⟩
  rw [saveNewLines_def (EnvStore.mk data raw)]
  rw [saveNewLines_def]
  simp only
  rw [saveWalk_append, saveWalk_stable, saveWalk_pairs data _ hq]
  have hempty : data.filter
      (fun p => ¬ p.1 ∈ ((saveWalk data raw).2 ++
        (data.filter (fun p => ¬ p.1 ∈ (saveWalk data raw).2)).map Prod.fst)) = [] := by
    rw [List.filter_eq_nil_iff]
    intro p hp
    simp only [decide_not, Bool.not_eq_true, Bool.not_eq_true', decide_eq_false_iff_not,
      Decidable.not_not]
    by_cases hw : p.1 ∈ (saveWalk data raw).2
    · exact List.mem_append_left _ hw
    · refine List.mem_append_right _ ?_
      refine List.mem_map.mpr ⟨p, ?_, rfl⟩
      refine List.mem_filter.mpr ⟨hp, ?_⟩
      simpa using hw
  rw [hempty]
  simp

/-! ## Splitlines lemmas -/

theorem translateNL_append_line (l rest : Str) (h : Char.ofNat 13 ∉ l) :
    translateNL (l ++ '\n' :: rest) = l ++ '\n' :: translateNL rest := by
  induction l with
  | nil =>
    rw [List.nil_append, List.nil_append, translateNL.eq_def]
    dsimp only
    rw [if_neg (by decide)]
  | cons c t ih =>
    have hc : ¬ c = Char.ofNat 13 := by
      intro hc
      exact h (by rw [← hc]; exact List.mem_cons_self _ _)
    have ht : Char.ofNat 13 ∉ t := fun hm => h (List.mem_cons_of_mem _ hm)
    rw [List.cons_append, translateNL.eq_def]
    dsimp only
    rw [if_neg hc, ih ht, List.cons_append]

theorem splitOnBreaks_cons_line (l rest : Str) (h : noLB l) :
    splitOnBreaks (l ++ '\n' :: rest) = l :: splitOnBreaks rest := by
  induction l with
  | nil =>
    rw [List.nil_append, splitOnBreaks, if_pos (by decide)]
  | cons c t ih =>
    have hc : isLineBreak c = false := h c (List.mem_cons_self _ _)
    have ht : noLB t := fun d hd => h d (List.mem_cons_of_mem _ hd)
    rw [List.cons_append, splitOnBreaks, if_neg (by rw [hc]; exact Bool.false_ne_true),
      ih ht]

theorem noLB_no_cr {l : Str} (h : noLB l) : Char.ofNat 13 ∉ l := by
  intro hm
  have := h _ hm
  simp [isLineBreak] at this

theorem splitlines_cons_line (l rest : Str) (h : noLB l) :
    splitlines (l ++ '\n' :: rest) = l :: splitlines rest := by
  rw [splitlines, translateNL_append_line l rest (noLB_no_cr h),
    splitOnBreaks_cons_line l _ h]
  rfl

theorem splitlines_join (lines : List Str) (hne : lines ≠ [])
    (h : ∀ l ∈ lines, noLB l) :
    splitlines (joinNL lines ++ ['\n']) = lines := by
  induction lines with
  | nil => exact absurd rfl hne
  | cons l rest ih =>
    have hl : noLB l := h l (List.mem_cons_self _ _)
    cases rest with
    | nil =>
      show splitlines (l ++ '\n' :: []) = [l]
      rw [splitlines_cons_line l [] hl]
      rfl
    | cons l2 rest2 =>
      have hrest : ∀ x ∈ l2 :: rest2, noLB x := fun x hx => h x (List.mem_cons_of_mem _ hx)
      rw [joinNL, List.append_assoc, List.cons_append, splitlines_cons_line l _ hl,
        ih (by simp) hrest]

theorem splitOnBreaks_noLB (s : Str) : ∀ l ∈ splitOnBreaks s, noLB l := by
  induction s with
  | nil => intro l hl; cases hl
  | cons c t ih =>
    intro l hl
    rw [splitOnBreaks] at hl
    by_cases hc : isLineBreak c = true
    · rw [if_pos hc] at hl
      rcases List.mem_cons.mp hl with h1 | h1
      · rw [h1]; intro d hd; cases hd
      · exact ih l h1
    · rw [if_neg hc] at hl
      have hcf : isLineBreak c = false := Bool.eq_false_iff.mpr hc
      cases hsp : splitOnBreaks t with
      | nil =>
        rw [hsp] at hl
        rcases List.mem_cons.mp hl with h1 | h1
        · rw [h1]
          intro d hd
          rcases List.mem_cons.mp hd with h3 | h3
          · rw [h3]; exact hcf
          · cases h3
        · cases h1
      | cons l0 ls0 =>
        rw [hsp] at hl
        rcases List.mem_cons.mp hl with h1 | h1
        · rw [h1]
          intro d hd
          rcases List.mem_cons.mp hd with h3 | h3
          · rw [h3]; exact hcf
          · exact ih l0 (by rw [hsp]; exact List.mem_cons_self _ _) d h3
        · exact ih l (by rw [hsp]; exact List.mem_cons_of_mem _ h1)

theorem splitlines_noLB (s : Str) : ∀ l ∈ splitlines s, noLB l := by
  intro l hl
  exact splitOnBreaks_noLB (translateNL s) l hl

/-! ## Characters of parsed entries come from the line -/

theorem mem_stripQuotes {c : Char} {v : Str} (h : c ∈ stripQuotes v) : c ∈ v := by
  cases v with
  | nil => exact h
  | cons c0 rest =>
    rw [stripQuotes] at h
    by_cases hq : rest ≠ [] ∧ rest.getLast? = some c0 ∧ (c0 = '"' ∨ c0 = squote)
    · rw [if_pos hq] at h
      exact List.mem_cons_of_mem _ (List.dropLast_subset rest h)
    · rw [if_neg hq] at h
      exact h

theorem parseEntry_chars {line k v : Str} (h : parseEntry line = some (k, v)) :
    (∀ c ∈ k, c ∈ line) ∧ (∀ c ∈ v, c ∈ line) := by
  rw [parseEntry] at h
  by_cases hn : strip line = []
  · rw [if_pos hn] at h; cases h
  · rw [if_neg hn] at h
    by_cases hh : (strip line).head? = some '#'
    · rw [if_pos hh] at h; cases h
    · rw [if_neg hh] at h
      cases hsp : splitEq (strip line) with
      | none => rw [hsp] at h; cases h
      | some p =>
        obtain ⟨kraw, vraw⟩ := p
        rw [hsp] at h
        obtain ⟨rfl, rfl⟩ : strip kraw = k ∧ stripQuotes (strip vraw) = v := by
          have := Option.some.inj h
          exact ⟨congrArg Prod.fst this, congrArg Prod.snd this⟩
        have hdecomp := (splitEq_some hsp).1
        constructor
        · intro c hc
          apply mem_strip
          rw [hdecomp]
          exact List.mem_append_left _ (mem_strip hc)
        · intro c hc
          apply mem_strip
          rw [hdecomp]
          exact List.mem_append_right _ (List.mem_cons_of_mem _ (mem_strip (mem_stripQuotes hc)))

/-- Any key produced by `_load`'s parsing is a good key. -/
theorem parseEntry_goodKey {line k v : Str} (h : parseEntry line = some (k, v)) :
    goodKey k := by
  rw [parseEntry] at h
  by_cases hn : strip line = []
  · rw [if_pos hn] at h; cases h
  · rw [if_neg hn] at h
    by_cases hh : (strip line).head? = some '#'
    · rw [if_pos hh] at h; cases h
    · rw [if_neg hh] at h
      cases hsp : splitEq (strip line) with
      | none => rw [hsp] at h; cases h
      | some p =>
        obtain ⟨kraw, vraw⟩ := p
        rw [hsp] at h
        have hk : strip kraw = k := congrArg Prod.fst (Option.some.inj h)
        have hkept : ¬ keptLine line := by
          intro hc
          rcases hc with hc | hc
          · exact hh hc
          · exact hn hc
        rw [← hk]
        exact lineKey_goodKey line kraw vraw hkept hsp

/-- Any value produced by `_load`'s parsing takes its characters from the
line, so entries loaded from newline-free lines are newline-free. -/
theorem loadData_noLB {p : Str × Str} {lines : List Str}
    (hl : ∀ l ∈ lines, noLB l) (h : p ∈ loadData lines) :
    noLB p.1 ∧ noLB p.2 := by
  obtain ⟨line, hmem, hpe⟩ := loadData_mem h
  obtain ⟨hk, hv⟩ := parseEntry_chars (k := p.1) (v := p.2) (by rw [hpe])
  exact ⟨fun c hc => hl line hmem c (hk _ hc), fun c hc => hl line hmem c (hv _ hc)⟩

theorem loadData_goodKey {p : Str × Str} {lines : List Str} (h : p ∈ loadData lines) :
    goodKey p.1 := by
  obtain ⟨line, hmem, hpe⟩ := loadData_mem h
  exact parseEntry_goodKey (k := p.1) (v := p.2) (by rw [hpe])

/-! ## The saved lines parse back to the data -/

/-- Every line written by the walk that parses at all parses to a current
entry of the data, up to value normalization. -/
theorem saveWalk_fst_parse (data : Dict) (raw : List Str) :
    ∀ line ∈ (saveWalk data raw).1, ∀ p, parseEntry line = some p →
      (alookup p.1 data).map normalizeVal = some p.2 := by
  induction raw with
  | nil => intro line hl; cases hl
  | cons l0 rest ih =>
    intro line hl p hpe
    by_cases hkept : keptLine l0
    · rw [saveWalk_cons_kept data l0 rest hkept] at hl
      rcases List.mem_cons.mp hl with h1 | h1
      · rw [h1] at hpe
        rw [parseEntry_eq_none_of_kept l0 hkept] at hpe
        cases hpe
      · exact ih line h1 p hpe
    · cases hsplit : splitEq (strip l0) with
      | none =>
        rw [saveWalk_cons_noEq data l0 rest hkept hsplit] at hl
        rcases List.mem_cons.mp hl with h1 | h1
        · rw [h1] at hpe
          rw [parseEntry_eq_none_of_noEq l0 hsplit] at hpe
          cases hpe
        · exact ih line h1 p hpe
      | some q =>
        obtain ⟨kraw, rest'⟩ := q
        cases hlook : alookup (strip kraw) data with
        | none =>
          rw [saveWalk_cons_del data l0 kraw rest' rest hkept hsplit hlook] at hl
          exact ih line hl p hpe
        | some v =>
          rw [saveWalk_cons_some data l0 kraw rest' v rest hkept hsplit hlook] at hl
          rcases List.mem_cons.mp hl with h1 | h1
          · have hgood : goodKey (strip kraw) := lineKey_goodKey l0 kraw rest' hkept hsplit
            rw [h1, parseEntry_mkLine_norm _ v hgood] at hpe
            obtain rfl := Option.some.inj hpe
            show (alookup (strip kraw) data).map normalizeVal = some (normalizeVal v)
            rw [hlook]
            rfl
          · exact ih line h1 p hpe

/-- Every walked line that carries a key is exactly `key=current-value` for
the value currently stored under that key. -/
theorem saveWalk_fst_value (data : Dict) (raw : List Str) :
    ∀ line ∈ (saveWalk data raw).1, ∀ k, lineKey line = some k →
      ∃ v, alookup k data = some v ∧ line = mkLine k v := by
  induction raw with
  | nil => intro line hl; cases hl
  | cons l0 rest ih =>
    intro line hl k hlk
    by_cases hkept : keptLine l0
    · rw [saveWalk_cons_kept data l0 rest hkept] at hl
      rcases List.mem_cons.mp hl with h1 | h1
      · rw [h1, lineKey, if_pos hkept] at hlk
        cases hlk
      · exact ih line h1 k hlk
    · cases hsplit : splitEq (strip l0) with
      | none =>
        rw [saveWalk_cons_noEq data l0 rest hkept hsplit] at hl
        rcases List.mem_cons.mp hl with h1 | h1
        · rw [h1, lineKey, if_neg hkept, hsplit] at hlk
          simp at hlk
        · exact ih line h1 k hlk
      | some q =>
        obtain ⟨kraw, rest'⟩ := q
        cases hlook : alookup (strip kraw) data with
        | none =>
          rw [saveWalk_cons_del data l0 kraw rest' rest hkept hsplit hlook] at hl
          exact ih line hl k hlk
        | some v =>
          rw [saveWalk_cons_some data l0 kraw rest' v rest hkept hsplit hlook] at hl
          rcases List.mem_cons.mp hl with h1 | h1
          · have hgood : goodKey (strip kraw) := lineKey_goodKey l0 kraw rest' hkept hsplit
            rw [h1, lineKey_mkLine _ v hgood] at hlk
            obtain rfl := Option.some.inj hlk
            exact ⟨v, hlook, h1⟩
          · exact ih line h1 k hlk

/-- Walked output lines are free of line boundaries when the raw lines and
the stored values are. -/
theorem saveWalk_fst_noLB (data : Dict) (raw : List Str)
    (hraw : ∀ l ∈ raw, noLB l) (hdv : ∀ p ∈ data, noLB p.2) :
    ∀ line ∈ (saveWalk data raw).1, noLB line := by
  induction raw with
  | nil => intro line hl; cases hl
  | cons l0 rest ih =>
    have hl0 : noLB l0 := hraw l0 (List.mem_cons_self _ _)
    have hrest : ∀ l ∈ rest, noLB l := fun l hm => hraw l (List.mem_cons_of_mem _ hm)
    intro line hl
    by_cases hkept : keptLine l0
    · rw [saveWalk_cons_kept data l0 rest hkept] at hl
      rcases List.mem_cons.mp hl with h1 | h1
      · rw [h1]; exact hl0
      · exact ih hrest line h1
    · cases hsplit : splitEq (strip l0) with
      | none =>
        rw [saveWalk_cons_noEq data l0 rest hkept hsplit] at hl
        rcases List.mem_cons.mp hl with h1 | h1
        · rw [h1]; exact hl0
        · exact ih hrest line h1
      | some q =>
        obtain ⟨kraw, rest'⟩ := q
        cases hlook : alookup (strip kraw) data with
        | none =>
          rw [saveWalk_cons_del data l0 kraw rest' rest hkept hsplit hlook] at hl
          exact ih hrest line hl
        | some v =>
          rw [saveWalk_cons_some data l0 kraw rest' v rest hkept hsplit hlook] at hl
          rcases List.mem_cons.mp hl with h1 | h1
          · rw [h1]
            intro c hc
            rcases List.mem_append.mp hc with h2 | h2
            · have h3 : c ∈ kraw := mem_strip h2
              have h4 : c ∈ strip l0 := by
                rw [(splitEq_some hsplit).1]
                exact List.mem_append_left _ h3
              exact hl0 c (mem_strip h4)
            · rcases List.mem_cons.mp h2 with h3 | h3
              · rw [h3]; decide
              · exact hdv _ (mem_of_alookup hlook) c h3
          · exact ih hrest line h1

/-- Every data key appears among the parsed keys of the saved lines. -/
theorem saveNewLines_cover (data : Dict) (raw : List Str)
    (hk : ∀ p ∈ data, goodKey p.1) :
    ∀ k ∈ data.map Prod.fst, k ∈ parsedKeys (saveNewLines (EnvStore.mk data raw)) := by
  intro k hkmem
  obtain ⟨p, hp, rfl⟩ := List.mem_map.mp hkmem
  rw [saveNewLines_def, parsedKeys, List.filterMap_append]
  by_cases hw : p.1 ∈ (saveWalk data raw).2
  · have hw2 : p.1 ∈ (saveWalk data raw).1.filterMap lineKey := by
      rw [saveWalk_fst_lineKeys]
      exact hw
    obtain ⟨line, hline, hlk⟩ := List.mem_filterMap.mp hw2
    obtain ⟨v, hpe⟩ := parseEntry_of_lineKey line p.1 hlk
    apply List.mem_append_left
    refine List.mem_filterMap.mpr ⟨line, hline, ?_⟩
    rw [hpe]
    rfl
  · apply List.mem_append_right
    have hpf : p ∈ data.filter (fun q => ¬ q.1 ∈ (saveWalk data raw).2) :=
      List.mem_filter.mpr ⟨hp, by simpa using hw⟩
    refine List.mem_filterMap.mpr ⟨mkLine p.1 p.2, List.mem_map.mpr ⟨p, hpf, rfl⟩, ?_⟩
    rw [parseEntry_mkLine_norm p.1 p.2 (hk p hp)]
    rfl

/-- Every saved line that parses at all parses to a current entry, up to
value normalization. -/
theorem saveNewLines_parse (data : Dict) (raw : List Str)
    (hk : ∀ p ∈ data, goodKey p.1) (hnd : (data.map Prod.fst).Nodup) :
    ∀ line ∈ saveNewLines (EnvStore.mk data raw), ∀ p, parseEntry line = some p →
      (alookup p.1 data).map normalizeVal = some p.2 := by
  intro line hl p hpe
  rw [saveNewLines_def] at hl
  rcases List.mem_append.mp hl with h1 | h1
  · exact saveWalk_fst_parse data raw line h1 p hpe
  · obtain ⟨q, hqf, rfl⟩ := List.mem_map.mp h1
    have hq : q ∈ data := List.mem_of_mem_filter hqf
    rw [parseEntry_mkLine_norm q.1 q.2 (hk q hq)] at hpe
    obtain rfl := Option.some.inj hpe
    show (alookup q.1 data).map normalizeVal = some (normalizeVal q.2)
    rw [alookup_of_mem_nodup hnd (show (q.1, q.2) ∈ data from hq)]
    rfl

/-- Every saved line that carries a key is exactly `key=current-value`. -/
theorem saveNewLines_values (data : Dict) (raw : List Str)
    (hk : ∀ p ∈ data, goodKey p.1) (hnd : (data.map Prod.fst).Nodup) :
    ∀ line ∈ saveNewLines (EnvStore.mk data raw), ∀ k, lineKey line = some k →
      ∃ v, alookup k data = some v ∧ line = mkLine k v := by
  intro line hl k hlk
  rw [saveNewLines_def] at hl
  rcases List.mem_append.mp hl with h1 | h1
  · exact saveWalk_fst_value data raw line h1 k hlk
  · obtain ⟨q, hqf, rfl⟩ := List.mem_map.mp h1
    have hq : q ∈ data := List.mem_of_mem_filter hqf
    rw [lineKey_mkLine q.1 q.2 (hk q hq)] at hlk
    obtain rfl := Option.some.inj hlk
    exact ⟨q.2, alookup_of_mem_nodup hnd (show (q.1, q.2) ∈ data from hq), rfl⟩

/-- All saved lines are free of line-boundary characters. -/
theorem saveNewLines_noLB (data : Dict) (raw : List Str)
    (hknl : ∀ p ∈ data, noLB p.1) (hvnl : ∀ p ∈ data, noLB p.2)
    (hraw : ∀ l ∈ raw, noLB l) :
    ∀ l ∈ saveNewLines (EnvStore.mk data raw), noLB l := by
  intro l hl
  rw [saveNewLines_def] at hl
  rcases List.mem_append.mp hl with h1 | h1
  · exact saveWalk_fst_noLB data raw hraw hvnl l h1
  · obtain ⟨p, hpf, rfl⟩ := List.mem_map.mp h1
    have hp : p ∈ data := List.mem_of_mem_filter hpf
    intro c hc
    rcases List.mem_append.mp hc with h2 | h2
    · exact hknl p hp c h2
    · rcases List.mem_cons.mp h2 with h3 | h3
      · rw [h3]; decide
      · exact hvnl p hp c h3

/-- The core load-after-save law on the entries mapping, with no
cleanliness assumption on the stored values: the re-read value is the
normalization (strip, then quote-strip) of the stored one. -/
theorem save_load_data_norm (data : Dict) (raw : List Str)
    (hk : ∀ p ∈ data, goodKey p.1) (hknl : ∀ p ∈ data, noLB p.1)
    (hvnl : ∀ p ∈ data, noLB p.2)
    (hraw : ∀ l ∈ raw, noLB l) (hnd : (data.map Prod.fst).Nodup) (k : Str) :
    alookup k (loadStore (saveContent (EnvStore.mk data raw))).data
      = (alookup k data).map normalizeVal := by
  by_cases hLnil : saveNewLines (EnvStore.mk data raw) = []
  · have hdata : data = [] := by
      rw [saveNewLines_def] at hLnil
      obtain ⟨hls, hA⟩ := List.append_eq_nil.mp hLnil
      have hw : (saveWalk data raw).2 = [] := by
        rw [← saveWalk_fst_lineKeys, hls]
        rfl
      have hfilter : data.filter (fun p => ¬ p.1 ∈ (saveWalk data raw).2) = [] :=
        List.map_eq_nil_iff.mp hA
      rw [List.eq_nil_iff_forall_not_mem]
      intro p hp
      have := List.filter_eq_nil_iff.mp hfilter p hp
      rw [hw] at this
      simp at this
    have hcontent : saveContent (EnvStore.mk data raw) = ['\n'] := by
      rw [saveContent, hLnil]
      rfl
    rw [hcontent, hdata]
    rfl
  · have hLnl := saveNewLines_noLB data raw hknl hvnl hraw
    have hsplit : splitlines (saveContent (EnvStore.mk data raw))
        = saveNewLines (EnvStore.mk data raw) := by
      rw [saveContent]
      exact splitlines_join _ hLnil hLnl
    show alookup k (loadData (splitlines (saveContent (EnvStore.mk data raw)))) = _
    rw [hsplit]
    have H : ∀ line ∈ saveNewLines (EnvStore.mk data raw), ∀ p, parseEntry line = some p →
        alookup p.1 (data.map (fun q => (q.1, normalizeVal q.2))) = some p.2 := by
      intro line hl p hpe
      rw [alookup_map]
      exact saveNewLines_parse data raw hk hnd line hl p hpe
    have Hcover : ∀ k2 ∈ (data.map (fun q => (q.1, normalizeVal q.2))).map Prod.fst,
        k2 ∈ parsedKeys (saveNewLines (EnvStore.mk data raw)) := by
      intro k2 hk2
      apply saveNewLines_cover data raw hk
      rw [map_fst_map_snd] at hk2
      exact hk2
    rw [loadData_lookup (data.map (fun q => (q.1, normalizeVal q.2))) _ H Hcover k,
      alookup_map]

/-- The clean round trip: when every stored value is already normalized,
save-then-load restores the mapping exactly. -/
theorem save_load_data (data : Dict) (raw : List Str)
    (hk : ∀ p ∈ data, goodKey p.1) (hknl : ∀ p ∈ data, noLB p.1)
    (hv : ∀ p ∈ data, cleanVal p.2) (hvnl : ∀ p ∈ data, noLB p.2)
    (hraw : ∀ l ∈ raw, noLB l) (hnd : (data.map Prod.fst).Nodup) (k : Str) :
    alookup k (loadStore (saveContent (EnvStore.mk data raw))).data = alookup k data := by
  rw [save_load_data_norm data raw hk hknl hvnl hraw hnd k]
  cases hl : alookup k data with
  | none => rfl
  | some v =>
    rw [Option.map_some', normalizeVal_of_clean (hv _ (mem_of_alookup hl))]

/-! ## Line counts in the saved file -/

theorem count_eq_one_str {a : Str} {l : List Str} (hnd : l.Nodup) (h : a ∈ l) :
    l.count a = 1 := by
  induction l with
  | nil => cases h
  | cons b l ih =>
    rw [List.count_cons]
    rcases List.mem_cons.mp h with h1 | h1
    · subst h1
      have hnm : a ∉ l := (List.nodup_cons.mp hnd).1
      rw [List.count_eq_zero.mpr hnm]
      simp
    · rw [ih (List.nodup_cons.mp hnd).2 h1]
      have hba : b ≠ a := by
        intro he
        exact (List.nodup_cons.mp hnd).1 (he ▸ h1)
      simp [hba]

theorem filterMap_lineKey_pairs (q : List (Str × Str)) (h : ∀ p ∈ q, goodKey p.1) :
    (q.map (fun p => mkLine p.1 p.2)).filterMap lineKey = q.map Prod.fst := by
  induction q with
  | nil => rfl
  | cons p q ih =>
    rw [List.map_cons, List.filterMap_cons,
      lineKey_mkLine p.1 p.2 (h p (List.mem_cons_self _ _)), List.map_cons,
      ih (fun r hr => h r (List.mem_cons_of_mem _ hr))]

/-- After `save`, a surviving key has one line when the original lines had
none, and otherwise exactly as many lines as the original file had for it;
a key not in the data has none. -/
theorem saveNewLines_counts (data : Dict) (raw : List Str)
    (hk : ∀ p ∈ data, goodKey p.1) (hnd : (data.map Prod.fst).Nodup) (k : Str) :
    ((alookup k data).isSome →
      lineKeyCount k (saveNewLines (EnvStore.mk data raw)) = max 1 (lineKeyCount k raw))
    ∧ (alookup k data = none →
      lineKeyCount k (saveNewLines (EnvStore.mk data raw)) = 0) := by
  have hq : ∀ p ∈ data.filter (fun p => ¬ p.1 ∈ (saveWalk data raw).2), goodKey p.1 :=
    fun p hp => hk p (List.mem_of_mem_filter hp)
  have hsplitL : lineKeyCount k (saveNewLines (EnvStore.mk data raw))
      = (saveWalk data raw).2.count k
        + ((data.filter (fun p => ¬ p.1 ∈ (saveWalk data raw).2)).map Prod.fst).count k := by
    rw [lineKeyCount, saveNewLines_def, List.filterMap_append, List.count_append,
      saveWalk_fst_lineKeys, filterMap_lineKey_pairs _ hq]
  constructor
  · intro hsome
    have hcw : (saveWalk data raw).2.count k = (raw.filterMap lineKey).count k := by
      rw [saveWalk_snd_filter]
      exact List.count_filter hsome
    have hkmem : k ∈ data.map Prod.fst := by
      rcases ho : alookup k data with _ | v
      · rw [ho] at hsome; cases hsome
      · exact List.mem_map.mpr ⟨(k, v), mem_of_alookup ho, rfl⟩
    rw [hsplitL, hcw]
    by_cases hw : k ∈ (saveWalk data raw).2
    · have hA0 : ((data.filter (fun p => ¬ p.1 ∈ (saveWalk data raw).2)).map Prod.fst).count k
          = 0 := by
        rw [List.count_eq_zero]
        intro hmem
        obtain ⟨p, hpf, rfl⟩ := List.mem_map.mp hmem
        have := (List.mem_filter.mp hpf).2
        simp only [decide_not, Bool.not_eq_true', decide_eq_false_iff_not] at this
        exact this hw
      have hge : 1 ≤ (raw.filterMap lineKey).count k := by
        rw [← hcw]
        exact List.count_pos_iff.mpr hw
      rw [hA0, Nat.add_zero, lineKeyCount, Nat.max_eq_right hge]
    · have hraw0 : (raw.filterMap lineKey).count k = 0 := by
        rw [← hcw, List.count_eq_zero]
        exact hw
      have hA1 : ((data.filter (fun p => ¬ p.1 ∈ (saveWalk data raw).2)).map Prod.fst).count k
          = 1 := by
        apply count_eq_one_str
        · exact List.Nodup.sublist
            (List.Sublist.map Prod.fst (List.filter_sublist data)) hnd
        · rcases ho : alookup k data with _ | v
          · rw [ho] at hsome; cases hsome
          · refine List.mem_map.mpr ⟨(k, v), ?_, rfl⟩
            refine List.mem_filter.mpr ⟨mem_of_alookup ho, ?_⟩
            simpa using hw
      rw [hraw0, hA1, lineKeyCount, hraw0]
      decide
  · intro hnone
    rw [hsplitL]
    have hw0 : (saveWalk data raw).2.count k = 0 := by
      rw [List.count_eq_zero]
      intro hmem
      rw [saveWalk_snd_filter] at hmem
      have := (List.mem_filter.mp hmem).2
      rw [hnone] at this
      cases this
    have hA0 : ((data.filter (fun p => ¬ p.1 ∈ (saveWalk data raw).2)).map Prod.fst).count k
        = 0 := by
      rw [List.count_eq_zero]
      intro hmem
      obtain ⟨p, hpf, rfl⟩ := List.mem_map.mp hmem
      have hmem2 : p.1 ∈ data.map Prod.fst :=
        List.mem_map.mpr ⟨p, List.mem_of_mem_filter hpf, rfl⟩
      exact (alookup_eq_none.mp hnone) hmem2
    rw [hw0, hA0]

/-- The comment and blank lines survive `save` verbatim and in order. -/
theorem saveNewLines_kept (data : Dict) (raw : List Str)
    (hk : ∀ p ∈ data, goodKey p.1) :
    (saveNewLines (EnvStore.mk data raw)).filter (fun l => decide (keptLine l))
      = raw.filter (fun l => decide (keptLine l)) := by
  rw [saveNewLines_def, List.filter_append, saveWalk_fst_kept]
  have hA : ((data.filter (fun p => ¬ p.1 ∈ (saveWalk data raw).2)).map
      (fun p => mkLine p.1 p.2)).filter (fun l => decide (keptLine l)) = [] := by
    rw [List.filter_eq_nil_iff]
    intro l hl
    obtain ⟨p, hpf, rfl⟩ := List.mem_map.mp hl
    have hg : goodKey p.1 := hk p (List.mem_of_mem_filter hpf)
    simpa using mkLine_not_kept p.1 p.2 hg
  rw [hA, List.append_nil]

/-! ## Watcher lemmas -/

theorem checkLoop_char (onC : Bool) (raises : Str → Bool) (files : List WFile)
    (m : Mtimes) (hnd : (files.map WFile.path).Nodup) :
    checkLoop onC raises files m
      = ((files.filter (changedB m)).length,
         recordAll files m,
         if onC then (files.filter (changedB m)).map (mkFired raises) else []) := by
  induction files generalizing m with
  | nil =>
    rw [checkLoop, List.filter_nil, recordAll, List.foldl_nil]
    cases onC <;> rfl
  | cons f fs ih =>
    rw [List.map_cons] at hnd
    have hnd2 := List.nodup_cons.mp hnd
    have hch : ∀ g ∈ fs, changedB (ainsert f.path f.mtime m) g = changedB m g := by
      intro g hg
      have hne : f.path ≠ g.path := by
        intro he
        exact hnd2.1 (List.mem_map.mpr ⟨g, hg, he.symm⟩)
      rw [changedB, changedB, alookup_ainsert, if_neg hne]
    have hfilter : fs.filter (changedB (ainsert f.path f.mtime m)) = fs.filter (changedB m) :=
      List.filter_congr hch
    have hrec := ih (ainsert f.path f.mtime m) hnd2.2
    rw [hfilter] at hrec
    rcases hx : checkLoop onC raises fs (ainsert f.path f.mtime m) with ⟨c, mw⟩
    rcases hmw : mw with ⟨m2, ev⟩
    rw [hx, hmw] at hrec
    have hc : c = (fs.filter (changedB m)).length := congrArg Prod.fst hrec
    have hm2 : m2 = recordAll fs (ainsert f.path f.mtime m) := by
      have := congrArg Prod.snd hrec
      exact congrArg Prod.fst this
    have hev : ev = if onC then (fs.filter (changedB m)).map (mkFired raises) else [] := by
      have := congrArg Prod.snd hrec
      exact congrArg Prod.snd this
    have hrecAll : recordAll (f :: fs) m = recordAll fs (ainsert f.path f.mtime m) := by
      rw [recordAll, List.foldl_cons]
      rfl
    rw [checkLoop]
    simp only [hx, hmw]
    cases ho : alookup f.path m with
    | none =>
      have hcf : changedB m f = false := by rw [changedB, ho]
      rw [List.filter_cons, hcf, hrecAll, hc, hm2, hev]
      simp
    | some t =>
      by_cases ht : t ≠ f.mtime
      · have hcf : changedB m f = true := by
          rw [changedB, ho]
          simpa using ht
        rw [List.filter_cons, hcf, hrecAll, hc, hm2, hev]
        cases onC with
        | true => simp [mkFired, ht]
        | false => simp [ht]
      · have hteq : t = f.mtime := by
          by_contra hne
          exact ht hne
        have hcf : changedB m f = false := by
          rw [changedB, ho]
          simp [hteq]
        rw [List.filter_cons, hcf, hrecAll, hc, hm2, hev]
        simp [ht]

theorem alookup_filter_mem (m : Mtimes) (paths : List Str) (k : Str) :
    alookup k (m.filter (fun e => e.1 ∈ paths))
      = if k ∈ paths then alookup k m else none := by
  induction m with
  | nil => rw [alookup]; cases hk : decide (k ∈ paths) <;> simp [alookup]
  | cons e m ih =>
    obtain ⟨k0, t⟩ := e
    by_cases h0 : k0 ∈ paths
    · rw [List.filter_cons]
      simp only [decide_eq_true h0, if_pos]
      rw [alookup]
      by_cases hk0 : k0 = k
      · subst hk0
        rw [if_pos rfl, if_pos h0, alookup, if_pos rfl]
      · rw [if_neg hk0, ih, alookup, if_neg hk0]
    · rw [List.filter_cons]
      simp only [decide_eq_false h0, Bool.false_eq_true, if_false]
      rw [ih]
      by_cases hk : k ∈ paths
      · have hk0 : k0 ≠ k := by
          intro he
          exact h0 (he ▸ hk)
        rw [if_pos hk, if_pos hk, alookup, if_neg hk0]
      · rw [if_neg hk, if_neg hk]

theorem alookup_recordAll (files : List WFile) (m : Mtimes)
    (hnd : (files.map WFile.path).Nodup) (k : Str) :
    alookup k (recordAll files m)
      = match files.find? (fun f => decide (f.path = k)) with
        | some f => some f.mtime
        | none => alookup k m := by
  induction files generalizing m with
  | nil => rfl
  | cons f fs ih =>
    rw [List.map_cons] at hnd
    have hnd2 := List.nodup_cons.mp hnd
    rw [recordAll, List.foldl_cons]
    have hstep : fs.foldl (fun acc g => ainsert g.path g.mtime acc) (ainsert f.path f.mtime m)
        = recordAll fs (ainsert f.path f.mtime m) := rfl
    rw [hstep, ih _ hnd2.2]
    by_cases hp : f.path = k
    · have hfind : fs.find? (fun g => decide (g.path = k)) = none := by
        rw [List.find?_eq_none]
        intro g hg
        simp only [decide_eq_true_eq]
        intro he
        exact hnd2.1 (List.mem_map.mpr ⟨g, hg, by rw [he, ← hp]⟩)
      have hcons : (f :: fs).find? (fun g => decide (g.path = k)) = some f := by
        rw [List.find?_cons, decide_eq_true hp]
      rw [hcons, hfind]
      show alookup k (ainsert f.path f.mtime m) = some f.mtime
      rw [alookup_ainsert, if_pos hp]
    · have hcons : (f :: fs).find? (fun g => decide (g.path = k))
          = fs.find? (fun g => decide (g.path = k)) := by
        rw [List.find?_cons, decide_eq_false hp]
      rw [hcons]
      cases hfind : fs.find? (fun g => decide (g.path = k)) with
      | some g => rfl
      | none =>
        show alookup k (ainsert f.path f.mtime m) = alookup k m
        rw [alookup_ainsert, if_neg hp]

theorem find?_self_of_nodup (files : List WFile) (f : WFile)
    (hnd : (files.map WFile.path).Nodup) (hf : f ∈ files) :
    files.find? (fun g => decide (g.path = f.path)) = some f := by
  induction files with
  | nil => cases hf
  | cons h fs ih =>
    rw [List.map_cons] at hnd
    have hnd2 := List.nodup_cons.mp hnd
    rcases List.mem_cons.mp hf with h1 | h1
    · subst h1
      rw [List.find?_cons, decide_eq_true (rfl : f.path = f.path)]
    · by_cases hp : h.path = f.path
      · exfalso
        apply hnd2.1
        rw [hp]
        exact List.mem_map.mpr ⟨f, h1, rfl⟩
      · rw [List.find?_cons, decide_eq_false hp]
        exact ih hnd2.2 h1

/-! ## Filesystem plumbing lemmas -/

theorem mkCatDir_files (fs : FS) (c : Str) : (fs.mkCatDir c).files = fs.files := by
  rw [FS.mkCatDir]
  split <;> rfl

theorem mem_mkCatDir_dirs (fs : FS) (c : Str) : c ∈ (fs.mkCatDir c).dirs := by
  rw [FS.mkCatDir]
  by_cases h : c ∈ fs.dirs
  · rw [if_pos h]; exact h
  · rw [if_neg h]
    exact List.mem_append_right _ (List.mem_cons_self _ _)

theorem read_eq_of_files {fs1 fs2 : FS} (h : fs1.files = fs2.files) (c n : Str) :
    fs1.read c n = fs2.read c n := by
  rw [FS.read, FS.read, h]

theorem read_mkCatDir (fs : FS) (c0 c n : Str) :
    (fs.mkCatDir c0).read c n = fs.read c n :=
  read_eq_of_files (mkCatDir_files fs c0) c n

theorem find?_append_of_none {α : Type} (p : α → Bool) (l1 l2 : List α)
    (h : l1.find? p = none) : (l1 ++ l2).find? p = l2.find? p := by
  induction l1 with
  | nil => rfl
  | cons a l ih =>
    rw [List.find?_cons] at h
    rw [List.cons_append, List.find?_cons]
    cases hp : p a with
    | true => rw [hp] at h; cases h
    | false =>
      rw [hp] at h
      exact ih h

theorem read_write_self (fs : FS) (c n content : Str) :
    (fs.write c n content).read c n = some content := by
  rw [FS.write]
  by_cases h : (fs.files.find? (fun e => e.1 = c ∧ e.2.1 = n)).isSome
  · rw [if_pos h, FS.read]
    have hfind : ∀ files : List (Str × Str × Str),
        (files.find? (fun e => e.1 = c ∧ e.2.1 = n)).isSome →
        ((files.map (fun e => if e.1 = c ∧ e.2.1 = n then (c, n, content) else e)).find?
          (fun e => e.1 = c ∧ e.2.1 = n)) = some (c, n, content) := by
      intro files
      induction files with
      | nil => intro h2; cases h2
      | cons e l ih =>
        intro h2
        by_cases he : e.1 = c ∧ e.2.1 = n
        · rw [List.map_cons, if_pos he, List.find?_cons,
            decide_eq_true (by exact ⟨rfl, rfl⟩ : ((c, n, content).1 = c ∧ ((c, n, content).2.1 = n)))]
        · rw [List.find?_cons, decide_eq_false he] at h2
          rw [List.map_cons, if_neg he, List.find?_cons, decide_eq_false he]
          exact ih h2
    rw [hfind fs.files h]
    rfl
  · rw [if_neg h, FS.read]
    have hnone : fs.files.find? (fun e => e.1 = c ∧ e.2.1 = n) = none := by
      cases hf : fs.files.find? (fun e => e.1 = c ∧ e.2.1 = n) with
      | none => rfl
      | some e => rw [hf] at h; exact absurd rfl h
    rw [find?_append_of_none _ _ _ hnone, List.find?_cons,
      decide_eq_true (by exact ⟨rfl, rfl⟩ : ((c, n, content).1 = c ∧ ((c, n, content).2.1 = n)))]
    rfl

theorem write_files_keys (fs : FS) (c n content : Str) (c2 n2 : Str)
    (h : ¬ (c = c2 ∧ n = n2)) :
    (fs.write c n content).read c2 n2 = fs.read c2 n2 := by
  rw [FS.write]
  by_cases hex : (fs.files.find? (fun e => e.1 = c ∧ e.2.1 = n)).isSome
  · rw [if_pos hex, FS.read, FS.read]
    have : ∀ files : List (Str × Str × Str),
        ((files.map (fun e => if e.1 = c ∧ e.2.1 = n then (c, n, content) else e)).find?
          (fun e => e.1 = c2 ∧ e.2.1 = n2)).map (fun e => e.2.2)
        = (files.find? (fun e => e.1 = c2 ∧ e.2.1 = n2)).map (fun e => e.2.2) := by
      intro files
      induction files with
      | nil => rfl
      | cons e l ih =>
        by_cases he : e.1 = c ∧ e.2.1 = n
        · have hne2 : ¬ ((c, n, content).1 = c2 ∧ (c, n, content).2.1 = n2) := by
            intro hc
            exact h ⟨hc.1, hc.2⟩
          have hee : ¬ (e.1 = c2 ∧ e.2.1 = n2) := by
            intro hc
            exact h ⟨by rw [← he.1, hc.1], by rw [← he.2, hc.2]⟩
          rw [List.map_cons, if_pos he, List.find?_cons, decide_eq_false hne2,
            List.find?_cons, decide_eq_false hee]
          exact ih
        · rw [List.map_cons, if_neg he, List.find?_cons, List.find?_cons]
          cases hp : decide (e.1 = c2 ∧ e.2.1 = n2) with
          | true => rfl
          | false => exact ih
    exact this fs.files
  · rw [if_neg hex, FS.read, FS.read]
    by_cases hfound : (fs.files.find? (fun e => e.1 = c2 ∧ e.2.1 = n2)).isSome
    · cases hf : fs.files.find? (fun e => e.1 = c2 ∧ e.2.1 = n2) with
      | none => rw [hf] at hfound; cases hfound
      | some e =>
        have : (fs.files ++ [(c, n, content)]).find? (fun e => e.1 = c2 ∧ e.2.1 = n2)
            = some e := by
          rw [List.find?_append, hf]
          rfl
        rw [this]
    · have hf : fs.files.find? (fun e => e.1 = c2 ∧ e.2.1 = n2) = none := by
        cases hf : fs.files.find? (fun e => e.1 = c2 ∧ e.2.1 = n2) with
        | none => rfl
        | some e => rw [hf] at hfound; exact absurd rfl hfound
      rw [find?_append_of_none _ _ _ hf, hf, List.find?_cons]
      have hne2 : ¬ ((c, n, content).1 = c2 ∧ (c, n, content).2.1 = n2) := by
        intro hc
        exact h ⟨hc.1, hc.2⟩
      rw [decide_eq_false hne2]
      rfl

/-! ## ProfileManager read lemmas -/

theorem get_snd (pm : PM) (c n : Str) (fs : FS) : (pm.get c n fs).2 = fs.mkCatDir c := by
  rw [PM.get]
  cases h : (fs.mkCatDir c).read c n <;> simp [h]

theorem get_fst (pm : PM) (c n : Str) (fs : FS) :
    (pm.get c n fs).1 = (fs.read c n).map loadStore := by
  rw [PM.get]
  rw [read_mkCatDir]
  cases h : fs.read c n <;> simp [h]

theorem get_dict_fst (pm : PM) (c n : Str) (fs : FS) :
    (pm.get_dict c n fs).1 =
      match fs.read c n with
      | none => []
      | some content => loadData (splitlines content) := by
  rw [PM.get_dict]
  rcases hg : pm.get c n fs with ⟨st?, fs1⟩
  have h1 : st? = (fs.read c n).map loadStore := by
    have hx := get_fst pm c n fs
    rw [hg] at hx
    exact hx
  cases hr : fs.read c n with
  | none =>
    rw [hr] at h1
    simp only [Option.map_none'] at h1
    subst h1
    rfl
  | some content =>
    rw [hr] at h1
    simp only [Option.map_some'] at h1
    subst h1
    rfl

theorem get_dict_snd (pm : PM) (c n : Str) (fs : FS) :
    (pm.get_dict c n fs).2 = fs.mkCatDir c := by
  rw [PM.get_dict]
  rcases hg : pm.get c n fs with ⟨st?, fs1⟩
  have h2 : fs1 = fs.mkCatDir c := by
    have hx := get_snd pm c n fs
    rw [hg] at hx
    exact hx
  cases st? <;> simpa using h2

theorem get_dict_fst_eq_of_files {fs1 fs2 : FS} (h : fs1.files = fs2.files)
    (pm pm2 : PM) (c n : Str) :
    (pm.get_dict c n fs1).1 = (pm2.get_dict c n fs2).1 := by
  rw [get_dict_fst, get_dict_fst, read_eq_of_files h]

/-- Every entry of a loaded profile dict has a good key and a key and value
free of line-boundary characters. -/
theorem get_dict_entry_wf (pm : PM) (c n : Str) (fs : FS) :
    ∀ p ∈ (pm.get_dict c n fs).1, goodKey p.1 ∧ noLB p.1 ∧ noLB p.2 := by
  intro p hp
  rw [get_dict_fst] at hp
  cases hr : fs.read c n with
  | none => rw [hr] at hp; cases hp
  | some content =>
    rw [hr] at hp
    have hnl := loadData_noLB (splitlines_noLB content) hp
    exact ⟨loadData_goodKey hp, hnl.1, hnl.2⟩

theorem get_dict_nodup (pm : PM) (c n : Str) (fs : FS) :
    ((pm.get_dict c n fs).1.map Prod.fst).Nodup := by
  rw [get_dict_fst]
  cases hr : fs.read c n with
  | none => exact List.nodup_nil
  | some content => exact loadData_nodup _

/-! ## The write path of `set` and what a later read sees -/

theorem setWrite_snd (pm : PM) (c n : Str) (data : Dict) (fs : FS) :
    (pm.setWrite c n data fs).2
      = (fs.mkCatDir c).write c n
          (saveContent (EnvStore.update
            (match fs.read c n with
             | some content => loadStore content
             | none => EnvStore.mk [] []) data)) := by
  rw [PM.setWrite, read_mkCatDir]

/-- What `get_dict` returns after `setWrite`: the written data overlaid on
the profile's previous mapping, every value re-read through normalization
(strip, then quote-strip). No cleanliness hypothesis is needed: the keys
and values of a parsed dict are automatically well-formed, and the
normalization absorbs whatever the raw written values were. -/
theorem setWrite_get_dict_norm (pm pm2 : PM) (c n : Str) (data : Dict) (fs : FS)
    (hkd : ∀ p ∈ data, goodKey p.1 ∧ noLB p.1)
    (hvd : ∀ p ∈ data, noLB p.2)
    (hnd : (data.map Prod.fst).Nodup) :
    ∀ k, alookup k (pm2.get_dict c n (pm.setWrite c n data fs).2).1
      = ((alookup k data).or (alookup k (pm.get_dict c n fs).1)).map normalizeVal := by
  intro k
  cases hr : fs.read c n with
  | some content0 =>
    have hsnd : (pm.setWrite c n data fs).2
        = (fs.mkCatDir c).write c n (saveContent ((loadStore content0).update data)) := by
      rw [setWrite_snd, hr]
    have hst1 : (loadStore content0).update data
        = EnvStore.mk (dupdate (loadData (splitlines content0)) data) (splitlines content0) :=
      rfl
    have hmem : ∀ p ∈ dupdate (loadData (splitlines content0)) data,
        p ∈ loadData (splitlines content0) ∨ p ∈ data := fun p hp => mem_dupdate hp
    have hrt := save_load_data_norm (dupdate (loadData (splitlines content0)) data)
      (splitlines content0)
      (by
        intro p hp
        rcases hmem p hp with h1 | h1
        · exact loadData_goodKey h1
        · exact (hkd p h1).1)
      (by
        intro p hp
        rcases hmem p hp with h1 | h1
        · exact (loadData_noLB (splitlines_noLB content0) h1).1
        · exact (hkd p h1).2)
      (by
        intro p hp
        rcases hmem p hp with h1 | h1
        · exact (loadData_noLB (splitlines_noLB content0) h1).2
        · exact hvd p h1)
      (splitlines_noLB content0)
      (nodup_dupdate (loadData_nodup _)) k
    rw [get_dict_fst, hsnd, read_write_self, hst1]
    show alookup k (loadStore (saveContent (EnvStore.mk
      (dupdate (loadData (splitlines content0)) data) (splitlines content0)))).data = _
    rw [hrt, alookup_dupdate hnd, get_dict_fst, hr]
  | none =>
    have hsnd : (pm.setWrite c n data fs).2
        = (fs.mkCatDir c).write c n (saveContent ((EnvStore.mk [] []).update data)) := by
      rw [setWrite_snd, hr]
    have hst1 : (EnvStore.mk [] []).update data
        = EnvStore.mk (dupdate [] data) [] := rfl
    have hrt := save_load_data_norm (dupdate [] data) []
      (by
        intro p hp
        rcases mem_dupdate hp with h1 | h1
        · cases h1
        · exact (hkd p h1).1)
      (by
        intro p hp
        rcases mem_dupdate hp with h1 | h1
        · cases h1
        · exact (hkd p h1).2)
      (by
        intro p hp
        rcases mem_dupdate hp with h1 | h1
        · cases h1
        · exact hvd p h1)
      (by intro l hl; cases hl)
      (nodup_dupdate List.nodup_nil) k
    rw [get_dict_fst, hsnd, read_write_self, hst1]
    show alookup k (loadStore (saveContent (EnvStore.mk (dupdate [] data) []))).data = _
    rw [hrt, alookup_dupdate hnd, get_dict_fst, hr]

/-! ## Diff lemmas -/

theorem alookup_filterMap {β : Type} (ks : List Str) (F : Str → Option (Str × β))
    (hF : ∀ x p, F x = some p → p.1 = x) (hnd : ks.Nodup) (k : Str) :
    alookup k (ks.filterMap F) = if k ∈ ks then (F k).map Prod.snd else none := by
  induction ks with
  | nil => simp [alookup]
  | cons x ks ih =>
    have hnd2 := List.nodup_cons.mp hnd
    cases hFx : F x with
    | none =>
      rw [List.filterMap_cons, hFx, ih hnd2.2]
      by_cases hk : x = k
      · subst hk
        have hnm : x ∉ ks := hnd2.1
        rw [if_neg hnm, if_pos (List.mem_cons_self _ _), hFx]
        rfl
      · by_cases hm : k ∈ ks
        · rw [if_pos hm, if_pos (List.mem_cons_of_mem _ hm)]
        · rw [if_neg hm, if_neg (by
            intro hc
            rcases List.mem_cons.mp hc with hc | hc
            · exact hk hc.symm
            · exact hm hc)]
    | some p =>
      have hpx : p.1 = x := hF x p hFx
      rw [List.filterMap_cons, hFx, alookup]
      by_cases hk : x = k
      · subst hk
        rw [if_pos hpx, if_pos (List.mem_cons_self _ _), hFx]
        rfl
      · rw [if_neg (by rw [hpx]; exact hk), ih hnd2.2]
        by_cases hm : k ∈ ks
        · rw [if_pos hm, if_pos (List.mem_cons_of_mem _ hm)]
        · rw [if_neg hm, if_neg (by
            intro hc
            rcases List.mem_cons.mp hc with hc | hc
            · exact hk hc.symm
            · exact hm hc)]

theorem diff_fst (pm : PM) (c na nb : Str) (fs : FS) :
    (pm.diff c na nb fs).1 =
      ((((pm.get_dict c na fs).1.map Prod.fst
          ++ (pm.get_dict c nb fs).1.map Prod.fst).dedup).insertionSort strLe).filterMap
        (fun k =>
          if alookup k (pm.get_dict c na fs).1 ≠ alookup k (pm.get_dict c nb fs).1
          then some (k, (alookup k (pm.get_dict c na fs).1, alookup k (pm.get_dict c nb fs).1))
          else none) := by
  rw [PM.diff]
  rcases ha : pm.get_dict c na fs with ⟨a, fs1⟩
  rcases hb : pm.get_dict c nb fs1 with ⟨b, fs2⟩
  have hfiles : fs1.files = fs.files := by
    have hx := get_dict_snd pm c na fs
    rw [ha] at hx
    show fs1.files = fs.files
    rw [show fs1 = fs.mkCatDir c from hx, mkCatDir_files]
  have hbeq : b = (pm.get_dict c nb fs).1 := by
    have hx := get_dict_fst_eq_of_files hfiles pm pm c nb
    rw [hb] at hx
    exact hx
  simp only [dkeys, hbeq]
  rw [get_dict_fst_eq_of_files hfiles pm pm c nb]

theorem diff_snd (pm : PM) (c na nb : Str) (fs : FS) :
    (pm.diff c na nb fs).2 = (fs.mkCatDir c).mkCatDir c := by
  rw [PM.diff]
  rcases ha : pm.get_dict c na fs with ⟨a, fs1⟩
  rcases hb : pm.get_dict c nb fs1 with ⟨b, fs2⟩
  have h1 : fs1 = fs.mkCatDir c := by
    have hx := get_dict_snd pm c na fs
    rw [ha] at hx
    exact hx
  have h2 : fs2 = fs1.mkCatDir c := by
    have hx := get_dict_snd pm c nb fs1
    rw [hb] at hx
    exact hx
  simp only [h2, h1]
  rw [get_dict_snd]

/-! ## Merge lemmas -/

theorem getLast?_cons_or {α : Type} (a : α) (l : List α) :
    (a :: l).getLast? = (l.getLast?).or (some a) := by
  cases l with
  | nil => rfl
  | cons b t =>
    rw [List.getLast?_cons_cons]
    have : (b :: t).getLast?.isSome := by
      rw [List.getLast?_isSome]
      simp
    cases hl : (b :: t).getLast? with
    | none => rw [hl] at this; cases this
    | some x => rfl

theorem merge_step_none (pm : PM) (base : Dict) (c : Str)
    (pairs : List (Str × Option Str)) (fs : FS) :
    pm.merge_profiles base ((c, none) :: pairs) fs = pm.merge_profiles base pairs fs := by
  rw [PM.merge_profiles, List.foldl_cons]
  rfl

theorem merge_step_some (pm : PM) (base : Dict) (c n : Str)
    (pairs : List (Str × Option Str)) (fs : FS) :
    pm.merge_profiles base ((c, some n) :: pairs) fs
      = match (pm.get c n fs).1 with
        | none => pm.merge_profiles base pairs (pm.get c n fs).2
        | some st =>
          if st.data ≠ [] then
            pm.merge_profiles (dupdate base st.data) pairs (pm.get c n fs).2
          else pm.merge_profiles base pairs (pm.get c n fs).2 := by
  rw [PM.merge_profiles, List.foldl_cons]
  dsimp only
  rcases hg : pm.get c n fs with ⟨st?, fs1⟩
  cases st? with
  | none => rfl
  | some st =>
    dsimp only
    by_cases hne : st.data ≠ []
    · rw [if_pos hne, if_pos hne]
      rfl
    · rw [if_neg hne, if_neg hne]
      rfl

theorem merge_profiles_lookup_aux (pm : PM) (pairs : List (Str × Option Str)) :
    ∀ (base : Dict) (fs fs0 : FS), fs.files = fs0.files → ∀ k,
      alookup k (pm.merge_profiles base pairs fs).1
        = ((pairs.filterMap
            (fun p => p.2.bind (fun n => alookup k (pm.get_dict p.1 n fs0).1))).getLast?).or
            (alookup k base) := by
  induction pairs with
  | nil =>
    intro base fs fs0 hfiles k
    rfl
  | cons pr pairs ih =>
    intro base fs fs0 hfiles k
    obtain ⟨c, n?⟩ := pr
    cases n? with
    | none =>
      rw [merge_step_none, List.filterMap_cons]
      exact ih base fs fs0 hfiles k
    | some n =>
      rcases hg : pm.get c n fs with ⟨st?, fs1⟩
      have hfs1 : fs1.files = fs0.files := by
        have hx := get_snd pm c n fs
        rw [hg] at hx
        rw [show fs1 = fs.mkCatDir c from hx, mkCatDir_files, hfiles]
      rw [merge_step_some pm base c n pairs fs, List.filterMap_cons, hg]
      dsimp only
      cases st? with
      | none =>
        have hF : ((some n).bind fun n => alookup k (pm.get_dict c n fs0).1) = none := by
          have hx := get_fst pm c n fs
          rw [hg] at hx
          rw [Option.some_bind, get_dict_fst, ← read_eq_of_files hfiles c n]
          cases hr : fs.read c n with
          | none => rfl
          | some content =>
            rw [hr] at hx
            simp only [Option.map_some'] at hx
            cases hx
        rw [hF]
        exact ih base fs1 fs0 hfs1 k
      | some st =>
        have hx := get_fst pm c n fs
        rw [hg] at hx
        have hF : ((some n).bind fun n => alookup k (pm.get_dict c n fs0).1)
            = alookup k st.data := by
          rw [Option.some_bind, get_dict_fst, ← read_eq_of_files hfiles c n]
          cases hr : fs.read c n with
          | none =>
            rw [hr] at hx
            simp only [Option.map_none'] at hx
            cases hx
          | some content =>
            rw [hr] at hx
            simp only [Option.map_some'] at hx
            rw [show st = loadStore content from Option.some.inj hx]
            rfl
        rw [hF]
        have hstnd : (st.data.map Prod.fst).Nodup := by
          cases hr : fs.read c n with
          | none =>
            rw [hr] at hx
            simp only [Option.map_none'] at hx
            cases hx
          | some content =>
            rw [hr] at hx
            simp only [Option.map_some'] at hx
            rw [show st = loadStore content from Option.some.inj hx]
            exact loadData_nodup _
        by_cases hne : st.data ≠ []
        · dsimp only
          rw [if_pos hne, ih (dupdate base st.data) fs1 fs0 hfs1 k, alookup_dupdate hstnd]
          cases hlk : alookup k st.data with
          | none => rw [Option.none_or]
          | some v => rw [getLast?_cons_or, Option.or_assoc]
        · dsimp only
          rw [if_neg hne, ih base fs1 fs0 hfs1 k]
          have hdnil : st.data = [] := by
            by_contra hc
            exact hne hc
          rw [hdnil]
          rfl

/-! ## Poll characterization -/

theorem checkOnce_char (onC : Bool) (raises : Str → Bool) (files : List WFile)
    (m : Mtimes) (hnd : (files.map WFile.path).Nodup) :
    checkOnce onC raises files m
      = ((files.filter (changedB m)).length,
         (recordAll files m).filter (fun e => e.1 ∈ files.map WFile.path),
         if onC then (files.filter (changedB m)).map (mkFired raises) else []) := by
  rw [checkOnce, checkLoop_char onC raises files m hnd]

theorem changedB_baseline (files : List WFile) (hnd : (files.map WFile.path).Nodup)
    (f : WFile) (hf : f ∈ files) : changedB (recordAll files []) f = false := by
  rw [changedB, alookup_recordAll files [] hnd, find?_self_of_nodup files f hnd hf]
  simp

/-! # Claims -/

/-- Claim C4 (confirmed): for a category whose required-key list has some
key absent from `data` or mapped to the empty string,
`set(category, name, data, validate=True)` raises `ProfileValidationError`
carrying the category, the profile name, and the missing keys in
required-key declaration order, and performs no write: the filesystem is
returned unchanged (not even the category directory is created, since the
error is raised before the path is resolved). -/
theorem c4_set_validation_error (pm : PM) (c n : Str) (data : Dict) (fs : FS)
    (h : ∃ k ∈ pm.requiredOf c, alookup k data = none ∨ alookup k data = some []) :
    pm.set c n data true fs
      = (Except.error ⟨c, n, (pm.requiredOf c).filter
          (fun k => alookup k data = none ∨ alookup k data = some [])⟩, fs) := by
  have hne : pm.validate c data ≠ [] := by
    obtain ⟨k, hk, hcond⟩ := h
    intro hnil
    have hm : k ∈ pm.validate c data :=
      List.mem_filter.mpr ⟨hk, by simpa using hcond⟩
    rw [hnil] at hm
    cases hm
  rw [PM.set, if_pos ⟨rfl, hne⟩]
  rfl

/-- Witness for C4: category `l` requires `M` and `K`; data carries only a
nonempty `M`, so the error lists exactly `K`, and the filesystem (here the
empty one) is returned untouched. -/
theorem c4_witness :
    (PM.mk [(['l'], CatInfo.mk [['M'], ['K']] [])]).set ['l'] ['g']
        [(['M'], ['m'])] true (FS.mk [] [])
      = (Except.error ⟨['l'], ['g'], [['K']]⟩, FS.mk [] []) := by
  rw [c4_set_validation_error (PM.mk [(['l'], CatInfo.mk [['M'], ['K']] [])]) ['l'] ['g']
    [(['M'], ['m'])] (FS.mk [] []) (by decide)]
  rfl

/-- Claim C5 (confirmed): `validate(category, data)` is a total function
(the embedding makes non-raising structural); it returns exactly the
required keys that are absent or empty, as a sublist of the required-key
list (hence in declaration order), its result does not depend on keys
outside the required list, and an unregistered category yields `[]`. -/
theorem c5_validate_spec (pm : PM) (c : Str) (data : Dict) :
    (pm.validate c data).Sublist (pm.requiredOf c)
    ∧ (∀ k, k ∈ pm.validate c data ↔
        k ∈ pm.requiredOf c ∧ (alookup k data = none ∨ alookup k data = some []))
    ∧ (alookup c pm.categories = none → pm.validate c data = [])
    ∧ (∀ data2, (∀ k ∈ pm.requiredOf c, alookup k data = alookup k data2) →
        pm.validate c data = pm.validate c data2) := by
  refine ⟨List.filter_sublist _, ?_, ?_, ?_⟩
  · intro k
    rw [PM.validate, List.mem_filter]
    simp
  · intro hc
    rw [PM.validate, PM.requiredOf, hc]
    rfl
  · intro data2 hsame
    rw [PM.validate, PM.validate]
    apply List.filter_congr
    intro k hk
    rw [hsame k hk]

/-- Witness for C5: an extra key `X` in the data does not change the result
of validation against a category requiring `M` and `K`. -/
theorem c5_witness :
    (PM.mk [(['l'], CatInfo.mk [['M'], ['K']] [])]).validate ['l']
        [(['M'], ['m']), (['X'], ['1'])]
      = (PM.mk [(['l'], CatInfo.mk [['M'], ['K']] [])]).validate ['l'] [(['M'], ['m'])] :=
  (c5_validate_spec (PM.mk [(['l'], CatInfo.mk [['M'], ['K']] [])]) ['l']
    [(['M'], ['m']), (['X'], ['1'])]).2.2.2 [(['M'], ['m'])] (by decide)

/-- Claim C10 (confirmed): every path-resolving operation, including the
read-only `get`, `get_dict`, `exists`, `list` and `diff`, leaves the
category directory existing on disk, for any manager (the category need
not be registered) and any profile name (the profile need not exist); and
when the directory was absent beforehand the filesystem is changed. -/
theorem c10_category_dir_created (pm : PM) (c n na nb : Str) (fs : FS) :
    c ∈ ((pm.get c n fs).2).dirs
    ∧ c ∈ ((pm.get_dict c n fs).2).dirs
    ∧ c ∈ ((pm.pexists c n fs).2).dirs
    ∧ c ∈ ((pm.plist c fs).2).dirs
    ∧ c ∈ ((pm.diff c na nb fs).2).dirs
    ∧ (c ∉ fs.dirs → (pm.get c n fs).2 ≠ fs) := by
  refine ⟨?_, ?_, ?_, ?_, ?_, ?_⟩
  · rw [get_snd]
    exact mem_mkCatDir_dirs fs c
  · rw [get_dict_snd]
    exact mem_mkCatDir_dirs fs c
  · exact mem_mkCatDir_dirs fs c
  · exact mem_mkCatDir_dirs fs c
  · rw [diff_snd]
    exact mem_mkCatDir_dirs _ c
  · intro hc heq
    rw [get_snd] at heq
    apply hc
    rw [← heq]
    exact mem_mkCatDir_dirs fs c

/-- Witness for C10: resolving a never-registered category `x` on an empty
filesystem does not leave the filesystem unchanged. -/
theorem c10_witness :
    ((PM.mk []).get ['x'] ['p'] (FS.mk [] [])).2 ≠ FS.mk [] [] :=
  (c10_category_dir_created (PM.mk []) ['x'] ['p'] ['a'] ['b']
    (FS.mk [] [])).2.2.2.2.2 (by decide)

/-- Claim C6 (confirmed): `diff` over any two profile names (a nonexistent
profile degrades to the empty mapping, it never fails) is antisymmetric —
swapping the names swaps every value pair — and its result is empty
exactly when the two profiles' full mappings agree at every key. -/
theorem c6_diff_spec (pm : PM) (c na nb : Str) (fs : FS) :
    (∀ k, alookup k (pm.diff c nb na fs).1
        = (alookup k (pm.diff c na nb fs).1).map (fun p => (p.2, p.1)))
    ∧ ((pm.diff c na nb fs).1 = [] ↔
        ∀ k, alookup k (pm.get_dict c na fs).1 = alookup k (pm.get_dict c nb fs).1)
    ∧ (fs.read c na = none → (pm.get_dict c na fs).1 = []) := by
  have hmem : ∀ (x y : List Str) (k : Str),
      k ∈ (x ++ y).dedup.insertionSort strLe ↔ k ∈ x ∨ k ∈ y := by
    intro x y k
    rw [List.mem_insertionSort, List.mem_dedup, List.mem_append]
  have hnds : ∀ (x y : List Str), ((x ++ y).dedup.insertionSort strLe).Nodup := by
    intro x y
    exact (List.perm_insertionSort strLe _).nodup_iff.mpr (List.nodup_dedup _)
  have hFtag : ∀ (a b : Dict) (x : Str) (p : Str × (Option Str × Option Str)),
      (if alookup x a ≠ alookup x b
       then some (x, (alookup x a, alookup x b)) else none) = some p → p.1 = x := by
    intro a b x p hp
    by_cases hne : alookup x a ≠ alookup x b
    · rw [if_pos hne] at hp
      rw [← Option.some.inj hp]
    · rw [if_neg hne] at hp
      cases hp
  refine ⟨?_, ?_, ?_⟩
  · intro k
    rw [diff_fst, diff_fst,
      alookup_filterMap _ _ (hFtag _ _) (hnds _ _) k,
      alookup_filterMap _ _ (hFtag _ _) (hnds _ _) k]
    by_cases hk : k ∈ (pm.get_dict c na fs).1.map Prod.fst
        ∨ k ∈ (pm.get_dict c nb fs).1.map Prod.fst
    · rw [if_pos ((hmem _ _ k).mpr hk.symm), if_pos ((hmem _ _ k).mpr hk)]
      by_cases heq : alookup k (pm.get_dict c na fs).1 = alookup k (pm.get_dict c nb fs).1
      · rw [if_neg (by simpa using heq.symm), if_neg (by simpa using heq)]
        rfl
      · rw [if_pos (by simpa using (Ne.symm heq)), if_pos (by simpa using heq)]
        rfl
    · rw [if_neg (fun hc => hk (Or.symm ((hmem _ _ k).mp hc))),
        if_neg (fun hc => hk ((hmem _ _ k).mp hc))]
      rfl
  · rw [diff_fst, List.filterMap_eq_nil_iff]
    constructor
    · intro hall k
      by_cases hk : k ∈ (pm.get_dict c na fs).1.map Prod.fst
          ∨ k ∈ (pm.get_dict c nb fs).1.map Prod.fst
      · have := hall k ((hmem _ _ k).mpr hk)
        by_cases heq : alookup k (pm.get_dict c na fs).1 = alookup k (pm.get_dict c nb fs).1
        · exact heq
        · rw [if_pos (by simpa using heq)] at this
          cases this
      · push_neg at hk
        rw [alookup_eq_none.mpr hk.1, alookup_eq_none.mpr hk.2]
    · intro hall x hx
      rw [if_neg (by simpa using hall x)]
  · intro hr
    rw [get_dict_fst, hr]

/-- Witness for C6: the profile name `z` does not exist as a file, so its
mapping is the empty dict. -/
theorem c6_witness :
    ((PM.mk []).get_dict ['c'] ['z']
        (FS.mk [] [(['c'], ['a'], ['X', '=', '1', '\n'])])).1 = [] :=
  (c6_diff_spec (PM.mk []) ['c'] ['z'] ['a']
    (FS.mk [] [(['c'], ['a'], ['X', '=', '1', '\n'])])).2.2 (by decide)

/-- Claim C7 (confirmed): `merge_profiles(base, pairs)` is a pure total
function of the caller-ordered pairs: at every key the result holds the
value of the last pair whose (non-null-named) profile defines the key, and
otherwise the base value — so later categories override earlier ones and
the base, pairs with a null name contribute nothing, and `base` itself is
not mutated (the embedding copies it). -/
theorem c7_merge_profiles_spec (pm : PM) (base : Dict)
    (pairs : List (Str × Option Str)) (fs : FS) (k : Str) :
    alookup k (pm.merge_profiles base pairs fs).1
      = ((pairs.filterMap
          (fun p => p.2.bind (fun n => alookup k (pm.get_dict p.1 n fs).1))).getLast?).or
          (alookup k base) :=
  merge_profiles_lookup_aux pm pairs base fs fs rfl k

theorem tracked_lookup (files : List WFile) (m0 : Mtimes)
    (hnd : (files.map WFile.path).Nodup) (p : Str) :
    alookup p ((recordAll files m0).filter (fun e => e.1 ∈ files.map WFile.path))
      = (files.find? (fun f => decide (f.path = p))).map WFile.mtime := by
  rw [alookup_filter_mem, alookup_recordAll files m0 hnd p]
  by_cases hp : p ∈ files.map WFile.path
  · rw [if_pos hp]
    cases hfind : files.find? (fun f => decide (f.path = p)) with
    | none =>
      exfalso
      obtain ⟨f, hf, hfp⟩ := List.mem_map.mp hp
      have := List.find?_eq_none.mp hfind f hf
      simp [hfp] at this
    | some f => rfl
  · rw [if_neg hp]
    have hfind : files.find? (fun f => decide (f.path = p)) = none := by
      rw [List.find?_eq_none]
      intro f hf
      simp only [decide_eq_true_eq]
      intro he
      exact hp (List.mem_map.mpr ⟨f, hf, he⟩)
    rw [hfind]
    rfl

theorem check_eq (onC : Bool) (raises : Str → Bool) (files : List WFile) (m : Mtimes) :
    check onC raises files m
      = checkOnce onC raises files (if m = [] then recordAll files [] else m) := by
  rw [check]
  by_cases hm : m = []
  · rw [if_pos hm, if_pos hm, hm]
    rfl
  · rw [if_neg hm, if_neg hm]

/-- Claim C8 (confirmed): `check()` counts exactly the previously-tracked
files whose modification time changed, invoking the callback once per such
file; the baseline scan (triggered when nothing is tracked) and
first-sighted files record state but fire nothing and count nothing; files
that disappeared are dropped from the tracked table without being counted;
and whether callbacks raise affects neither the count nor the tracked
table (the exception is swallowed). -/
theorem c8_check_spec (files : List WFile) (m : Mtimes) (raises : Str → Bool)
    (hnd : (files.map WFile.path).Nodup) :
    (m ≠ [] →
      (check true raises files m).1 = (files.filter (changedB m)).length
      ∧ (check true raises files m).2.2 = (files.filter (changedB m)).map (mkFired raises))
    ∧ (m = [] → (check true raises files m).1 = 0 ∧ (check true raises files m).2.2 = [])
    ∧ (∀ p, alookup p (check true raises files m).2.1
        = (files.find? (fun f => decide (f.path = p))).map WFile.mtime)
    ∧ (check true raises files m).1 = (check true (fun _ => false) files m).1
    ∧ (check true raises files m).2.1 = (check true (fun _ => false) files m).2.1 := by
  by_cases hm : m = []
  · have hb : files.filter (changedB (recordAll files [])) = [] := by
      rw [List.filter_eq_nil_iff]
      intro f hf
      rw [changedB_baseline files hnd f hf]
      simp
    have hc : ∀ r : Str → Bool, check true r files m
        = ((0 : Nat),
           (recordAll files (recordAll files [])).filter
             (fun e => e.1 ∈ files.map WFile.path),
           []) := by
      intro r
      rw [check_eq, if_pos hm, checkOnce_char true r files _ hnd, hb]
      rfl
    refine ⟨fun hne => absurd hm hne, fun _ => ?_, fun p => ?_, ?_, ?_⟩
    · rw [hc raises]
      exact ⟨rfl, rfl⟩
    · rw [hc raises]
      exact tracked_lookup files (recordAll files []) hnd p
    · rw [hc raises, hc (fun _ => false)]
    · rw [hc raises, hc (fun _ => false)]
  · have hc : ∀ r : Str → Bool, check true r files m
        = ((files.filter (changedB m)).length,
           (recordAll files m).filter (fun e => e.1 ∈ files.map WFile.path),
           (files.filter (changedB m)).map (mkFired r)) := by
      intro r
      rw [check_eq, if_neg hm, checkOnce_char true r files m hnd]
      rfl
    refine ⟨fun _ => ?_, fun he => absurd he hm, fun p => ?_, ?_, ?_⟩
    · rw [hc raises]
      exact ⟨rfl, rfl⟩
    · rw [hc raises]
      exact tracked_lookup files m hnd p
    · rw [hc raises, hc (fun _ => false)]
    · rw [hc raises, hc (fun _ => false)]

/-- Witness for C8: one tracked file at path `p` whose recorded time 3
differs from its current time 5 — `check` counts exactly one change and
fires the callback once. -/
theorem c8_witness :
    (check true (fun _ => false) [WFile.mk ['p'] ['c'] ['n'] 5 ['A', '=', '1', '\n']]
        [(['p'], 3)]).1
      = ([WFile.mk ['p'] ['c'] ['n'] 5 ['A', '=', '1', '\n']].filter
          (changedB [(['p'], 3)])).length
    ∧ (check true (fun _ => false) [WFile.mk ['p'] ['c'] ['n'] 5 ['A', '=', '1', '\n']]
        [(['p'], 3)]).2.2
      = ([WFile.mk ['p'] ['c'] ['n'] 5 ['A', '=', '1', '\n']].filter
          (changedB [(['p'], 3)])).map (mkFired (fun _ => false)) :=
  (c8_check_spec [WFile.mk ['p'] ['c'] ['n'] 5 ['A', '=', '1', '\n']] [(['p'], 3)]
    (fun _ => false) (by decide)).1 (by decide)

theorem copy_notFound (pm : PM) (sc sn dc dn : Str) (fs : FS) (data : Dict) (fs1 : FS)
    (hg : pm.get_dict sc sn fs = (data, fs1)) (he : data = []) :
    pm.copy sc sn dc dn fs = (CopyResult.notFound, pm, fs1) := by
  rw [PM.copy, hg]
  dsimp only
  rw [if_pos he]

theorem copy_ok (pm : PM) (sc sn dc dn : Str) (fs : FS) (data : Dict) (fs1 : FS)
    (hg : pm.get_dict sc sn fs = (data, fs1)) (hne : data ≠ []) :
    pm.copy sc sn dc dn fs
      = (CopyResult.ok ((PM.mk (ainsert dc ⟨[], []⟩ pm.categories)).setWrite dc dn data
          (fs1.mkCatDir dc)).1,
         PM.mk (ainsert dc ⟨[], []⟩ pm.categories),
         ((PM.mk (ainsert dc ⟨[], []⟩ pm.categories)).setWrite dc dn data
          (fs1.mkCatDir dc)).2) := by
  rw [PM.copy, hg]
  dsimp only
  rw [if_neg hne]
  dsimp only [PM.add_category, Option.getD]

end Getv
